import Mathlib

/-
  Verification of jaraco.itertools (src/jaraco/itertools.py) against its
  natural-language specification.

  The Python data structures are shallowly embedded:
  collections.OrderedDict becomes an association list with unique keys kept
  in insertion order; a Python iterable becomes a Lean List consumed from the
  front; raising an exception becomes an Except error value.  Python
  truthiness of the items handled by collate_revs is modelled by an explicit
  parameter truthy of type alpha to Bool, matching what bool(item) returns in
  Python for the item type at hand.
-/

set_option maxHeartbeats 1000000
set_option linter.unusedSectionVars false

namespace JaracoItertools

universe u v

variable {α : Type u} {β : Type v} {κ : Type v}

/-! ### Ordered dictionaries as association lists -/

/-- Membership test of a key, models the Python expression key in od. -/
def odMem [DecidableEq κ] (k : κ) (d : List (κ × α)) : Bool :=
  d.any (fun p => decide (p.1 = k))

/-- Lookup, models od.get(key): the value at the first (only) matching key. -/
def odGet [DecidableEq κ] (d : List (κ × α)) (k : κ) : Option α :=
  (d.find? (fun p => decide (p.1 = k))).map Prod.snd

/-- The keys of the dictionary in insertion order. -/
def odKeys (d : List (κ × α)) : List κ :=
  d.map Prod.fst

/-- In-place update of the value stored at a present key. -/
def odSet [DecidableEq κ] (d : List (κ × α)) (k : κ) (v : α) : List (κ × α) :=
  d.map (fun p => if p.1 = k then (k, v) else p)

/-- Insertion as done by OrderedDict assignment: update in place when the key
is present (keeping its position), append at the end otherwise. -/
def odInsert [DecidableEq κ] (d : List (κ × α)) (k : κ) (v : α) : List (κ × α) :=
  if odMem k d then odSet d k v else d ++ [(k, v)]

/-- Models OrderedDict((key(el), el) for el in xs): last write wins for a
duplicated key, which keeps its first-insertion position. -/
def odOfList [DecidableEq κ] (key : α → κ) (xs : List α) : List (κ × α) :=
  xs.foldl (fun d x => odInsert d (key x) x) []

/-- Models od.pop(key, default): the optional value and the dictionary with
the key removed. -/
def odPop [DecidableEq κ] (d : List (κ × α)) (k : κ) : Option α × List (κ × α) :=
  (odGet d k, d.filter (fun p => !decide (p.1 = k)))

/-! ### collate_revs and helpers (src/jaraco/itertools.py) -/

/-- Embeds partition_dict: the items strictly before the key, the optional
item at the key, and the items strictly after the key.  When the key is
absent the first component holds every item and the third is empty, exactly
as the takewhile in the source leaves the iterator. -/
def partition_dict [DecidableEq κ] (d : List (κ × α)) (k : κ) :
    List (κ × α) × Option α × List (κ × α) :=
  (d.takeWhile (fun p => !decide (p.1 = k)),
   odGet d k,
   (d.dropWhile (fun p => !decide (p.1 = k))).drop 1)

/-- Python truthiness of the optional matched item: None is falsy, a present
item has the truthiness of its value. -/
def pyTruthy (truthy : α → Bool) : Option α → Bool
  | none => false
  | some v => truthy v

/-- Embeds the helper spelled swap on miss in the source: given a
partition_dict result, swap the before and after parts when the matched item
is falsy (the source tests the item with a plain if, i.e. truthiness, not
presence). -/
def swap_on_miss (truthy : α → Bool)
    (pr : List (κ × α) × Option α × List (κ × α)) :
    List (κ × α) × Option α × List (κ × α) :=
  if pyTruthy truthy pr.2.1 then pr else (pr.2.2, pr.2.1, pr.1)

/-- Embeds maybe_merge for its two call sites: merge the new item with the
popped old item when the latter is present, otherwise pass the new item
through (reduce over the non-missing items). -/
def maybe_merge (merge : α → α → α) (x : α) : Option α → α
  | some y => merge x y
  | none => x

/-- The for-loop over the before part in collate_revs: each new item is
yielded merged with the old item popped at its key when one exists; the
mutated old dictionary is threaded through. -/
def collate_flush [DecidableEq κ] (merge : α → α → α) :
    List (κ × α) → List (κ × α) → List α × List (κ × α)
  | [], old_d => ([], old_d)
  | p :: before, old_d =>
    let po := odPop old_d p.1
    let r := collate_flush merge before po.2
    (maybe_merge merge p.2 po.1 :: r.1, r.2)

/-- The main loop of collate_revs over the old dictionary (the source walks
it with the mutable-iterator helper, popping the first key each round and
allowing the flush to pop further keys).  When the head key is absent from
the new dictionary its item is yielded as is; otherwise the new dictionary is
partitioned at the key, possibly swapped on a falsy match, the chosen part is
flushed, the matched pair is merged, and the loop continues on what is left.
When the old dictionary is exhausted the remaining new values are yielded.
The first argument is explicit recursion fuel: each round consumes at least
the head of the old dictionary, so fuel equal to its length is always enough
(the zero-fuel case with a non-empty dictionary is unreachable from
collate_revs). -/
def collate_loop [DecidableEq κ] (key : α → κ) (merge : α → α → α)
    (truthy : α → Bool) : Nat → List (κ × α) → List (κ × α) → List α
  | _, [], new_d => new_d.map Prod.snd
  | 0, _ :: _, _ => []
  | fuel + 1, p :: rest, new_d =>
    match odGet new_d p.1 with
    | none => p.2 :: collate_loop key merge truthy fuel rest new_d
    | some mv =>
      let parts := swap_on_miss truthy (partition_dict new_d p.1)
      let fl := collate_flush merge parts.1 rest
      fl.1 ++ merge p.2 mv :: collate_loop key merge truthy fuel fl.2 parts.2.2

/-- Embeds collate_revs.  The inputs are materialised into ordered
dictionaries keyed by the key function (last write wins) and collated by the
loop above.  truthy gives the Python truthiness of an item. -/
def collate_revs [DecidableEq κ] (key : α → κ) (merge : α → α → α)
    (truthy : α → Bool) (old new : List α) : List α :=
  collate_loop key merge truthy (odOfList key old).length
    (odOfList key old) (odOfList key new)

/-! ### one and maybe_single -/

/-- Embeds one: tuple unpacking of exactly one element; the ValueError raised
on zero or several elements is modelled as a unit error. -/
def one : List α → Except Unit α
  | [x] => Except.ok x
  | _ => Except.error ()

/-- Embeds maybe_single: the single element when the sequence has exactly
one, otherwise the sequence itself (the unpacking ValueError is caught). -/
def maybe_single (s : List α) : α ⊕ List α :=
  match s with
  | [x] => Sum.inl x
  | _ => Sum.inr s

/-! ### Counted predicates -/

/-- State of a LessThanNBlanks predicate: the threshold passed to the
constructor and the number of blank (falsy) arguments seen so far. -/
structure LessThanNBlanks where
  limit : Nat
  count : Nat
deriving DecidableEq

/-- One call of a LessThanNBlanks object.  The argument is the Python
truthiness of the item; the count grows on a falsy item, a count beyond the
limit raises ValueError (unit error), otherwise the call reports whether the
count is still below the limit. -/
def LessThanNBlanks.call (s : LessThanNBlanks) (arg : Bool) :
    Except Unit (Bool × LessThanNBlanks) :=
  let c := s.count + (if arg then 0 else 1)
  if s.limit < c then Except.error ()
  else Except.ok (decide (c < s.limit), ⟨s.limit, c⟩)

/-- State of a LessThanNConsecutiveBlanks predicate: threshold, current run
of consecutive blanks, and the truthiness of the last argument. -/
structure LessThanNConsecutiveBlanks where
  limit : Nat
  count : Nat
  last : Bool
deriving DecidableEq

/-- One call of a LessThanNConsecutiveBlanks object: the count grows on a
falsy item and resets to zero on a truthy one (the source resets after the
increment and before the limit check), a count beyond the limit raises
ValueError, otherwise the call reports whether the count is below the
limit. -/
def LessThanNConsecutiveBlanks.call (s : LessThanNConsecutiveBlanks)
    (arg : Bool) : Except Unit (Bool × LessThanNConsecutiveBlanks) :=
  let c0 := s.count + (if arg then 0 else 1)
  let c := if arg then 0 else c0
  if s.limit < c then Except.error ()
  else Except.ok (decide (c < s.limit), ⟨s.limit, c, arg⟩)

/-- State of a Count stop object: calls made so far and the limit, where none
models the unlimited case (a None or infinite constructor argument). -/
structure Count where
  count : Nat
  limit : Option Nat
deriving DecidableEq

/-- One call of a Count object (the argument is ignored by the source, so it
is not modelled): raise ValueError when the count has already passed the
limit, otherwise increment and report whether the count is still within the
limit. -/
def Count.call (s : Count) : Except Unit (Bool × Count) :=
  if (match s.limit with | none => false | some l => decide (l < s.count)) then
    Except.error ()
  else
    Except.ok
      ((match s.limit with | none => true | some l => decide (s.count + 1 ≤ l)),
       ⟨s.count + 1, s.limit⟩)

/-- The results of calling a Count object repeatedly on the successive items
of a sequence: entry n is the outcome of call number n + 1.  Once a call has
raised, the state is unchanged (the source raises before mutating), so every
later call raises as well; the error is propagated. -/
def countTrace (s₀ : Count) : Nat → Except Unit (Bool × Count)
  | 0 => s₀.call
  | n + 1 =>
    match countTrace s₀ n with
    | Except.ok (_, s) => s.call
    | Except.error e => Except.error e

/-! ### GroupbySaved and FetchingQueue -/

/-- The exceptions the partitioner distinguishes: the normal end-of-sequence
signal and the key-not-found error carrying the requested key. -/
inductive PyErr (κ : Type v) where
  | stopIteration : PyErr κ
  | keyError : κ → PyErr κ
deriving DecidableEq

/-- The enqueue step of GroupbySaved.__fetch__ on the queue dictionary:
setdefault an empty queue for the key, then append the item to it. -/
def enqueue [DecidableEq κ] (qs : List (κ × List α)) (k : κ) (x : α) :
    List (κ × List α) :=
  match odGet qs k with
  | some buf => odSet qs k (buf ++ [x])
  | none => qs ++ [(k, [x])]

/-- State of a GroupbySaved object: the not-yet-consumed upstream sequence
and the per-key FIFO buffers (FetchingQueue contents) in first-seen key
order.  The classifier function is passed to each operation. -/
structure GroupbySaved (α : Type u) (κ : Type v) where
  sequence : List α
  queues : List (κ × List α)

/-- Embeds GroupbySaved.__getitem__ backed by __find_queue__: while the key
has no queue, fetch one upstream item and route it; an exhausted upstream
(StopIteration inside the fetch) is turned into a KeyError carrying the
requested key.  On success the buffered items for the key and the updated
state are returned. -/
def find_queue [DecidableEq κ] (f : α → κ) (k : κ) :
    List α → List (κ × List α) → Except (PyErr κ) (List α × GroupbySaved α κ)
  | [], qs =>
    match odGet qs k with
    | some buf => Except.ok (buf, ⟨[], qs⟩)
    | none => Except.error (PyErr.keyError k)
  | x :: rest, qs =>
    match odGet qs k with
    | some buf => Except.ok (buf, ⟨x :: rest, qs⟩)
    | none => find_queue f k rest (enqueue qs (f x) x)

/-- The buffered items of the queue at a key (empty when the key has no
queue yet). -/
def bufD [DecidableEq κ] (qs : List (κ × List α)) (k : κ) : List α :=
  (odGet qs k).getD []

/-- Draining one FetchingQueue, fuelled: repeatedly take the next item of
the queue at the key, where FetchingQueue.__next__ pops the head of a
non-empty buffer and otherwise fetches upstream items (routing them to their
queues) until the buffer fills or the upstream exhausts; exhaustion ends the
iteration.  Each step either pops one buffered item or consumes one upstream
item, so twice the upstream length plus the buffer length plus one is always
enough fuel (the zero-fuel case is unreachable from drain). -/
def drainF [DecidableEq κ] (f : α → κ) (k : κ) :
    Nat → List α → List (κ × List α) → List α × GroupbySaved α κ
  | fuel + 1, up, qs =>
    match odGet qs k with
    | some (x :: buf) =>
      let r := drainF f k fuel up (odSet qs k buf)
      (x :: r.1, r.2)
    | _ =>
      match up with
      | [] => ([], ⟨[], qs⟩)
      | y :: rest => drainF f k fuel rest (enqueue qs (f y) y)
  | 0, up, qs => ([], ⟨up, qs⟩)

/-- Models list(iter(queue)) for the FetchingQueue at a key: the items it
yields until StopIteration, together with the final partitioner state. -/
def drain [DecidableEq κ] (f : α → κ) (k : κ) (s : GroupbySaved α κ) :
    List α × GroupbySaved α κ :=
  drainF f k (2 * s.sequence.length + (bufD s.queues k).length + 1)
    s.sequence s.queues

/-- Fully draining the partitioner: the sub-queues at the given keys are
drained one after the other, threading the shared state (draining one queue
advances the shared upstream and fills sibling queues). -/
def drainAll [DecidableEq κ] (f : α → κ) :
    GroupbySaved α κ → List κ → List (List α)
  | _, [] => []
  | s, k :: ks =>
    let r := drain f k s
    r.1 :: drainAll f r.2 ks

/-! ### grouper_nofill_str -/

/-- Fuelled chunking: break the list into pieces of n adjacent elements, the
last piece possibly shorter.  Each step consumes at least one element, so
fuel equal to the list length is always enough; with chunk size zero the
Python library call yields nothing (its sentinel equals the first taken
chunk), which the second equation mirrors. -/
def chunkedF : Nat → Nat → List α → List (List α)
  | _, _, [] => []
  | _, 0, _ :: _ => []
  | 0, _ + 1, _ :: _ => []
  | fuel + 1, m + 1, x :: xs => (x :: xs.take m) :: chunkedF fuel (m + 1) (xs.drop m)

/-- Models more_itertools.chunked as called by the source. -/
def chunked (n : Nat) (s : List α) : List (List α) :=
  chunkedF s.length n s

/-- Embeds grouper_nofill_str: chunk the sequence into pieces of size n, the
last possibly smaller.  The string branch of the source only rejoins each
chunk of characters into a string, which the list-of-characters model
already represents. -/
def grouper_nofill_str (n : Nat) (s : List α) : List (List α) :=
  chunked n s

/-! ### nwise and window -/

/-- The heads of a list of lists: none as soon as one list is empty.  This is
what one round of zip(*views) reads. -/
def heads? : List (List α) → Option (List α)
  | [] => some []
  | [] :: _ => none
  | (x :: _) :: vs => (heads? vs).map (fun hs => x :: hs)

/-- zip over the tail views, driven structurally by the first view: a row is
the first view's head together with the other views' heads, then all views
advance; the zip stops when any view empties. -/
def zipViews2 : List α → List (List α) → List (List α)
  | [], _ => []
  | x :: v, vs =>
    match heads? vs with
    | none => []
    | some hs => (x :: hs) :: zipViews2 v (vs.map List.tail)

/-- Models zip(*views): tuples of the parallel elements of the views,
truncated at the shortest view. -/
def zipViews : List (List α) → List (List α)
  | [] => []
  | v :: vs => zipViews2 v vs

/-- Embeds nwise: the tee loop of the source leaves a list of views of the
input advanced by 0, 1, ... offsets (one view when n is below two, since the
while loop never runs for n at most one), and zips them, yielding the lists
of n adjacent elements (1-tuples when n is zero). -/
def nwise (xs : List α) (n : Nat) : List (List α) :=
  zipViews ((List.range (max n 1)).map (fun i => xs.drop i))

/-- zip of three lists into triples, truncated at the shortest (models
zip(a, b, c)). -/
def zip3 {γ : Type u} {δ : Type u} {ε : Type u} :
    List γ → List δ → List ε → List (γ × δ × ε)
  | x :: xs, y :: ys, z :: zs => (x, y, z) :: zip3 xs ys zs
  | _, _, _ => []

/-- Embeds window: the pre context view is nwise over the input preceded by
pre_size None padding, the post context view is nwise over the input followed
by post_size None padding with its first tuple discarded (the next call in
the source), and the three streams are zipped into (pre, item, post)
triples. -/
def window (xs : List α) (pre_size post_size : Nat) :
    List (List (Option α) × α × List (Option α)) :=
  zip3
    (nwise (List.replicate pre_size none ++ xs.map some) pre_size)
    xs
    ((nwise (xs.map some ++ List.replicate post_size none) post_size).drop 1)

end JaracoItertools

namespace JaracoItertools

variable {β₁ : Type u} {κ₁ : Type v} [DecidableEq κ₁]

/-- Lookup on a cons cell. -/
theorem odGet_cons (p : κ₁ × β₁) (d : List (κ₁ × β₁)) (k : κ₁) :
    odGet (p :: d) k = if p.1 = k then some p.2 else odGet d k := by
  by_cases h : p.1 = k
  · rw [if_pos h]
    simp [odGet, List.find?_cons_of_pos, h]
  · rw [if_neg h]
    simp only [odGet]
    rw [List.find?_cons_of_neg]
    simp [h]

/-- A lookup misses exactly when no entry has the key. -/
theorem odGet_eq_none_iff (d : List (κ₁ × β₁)) (k : κ₁) :
    odGet d k = none ↔ ∀ p ∈ d, p.1 ≠ k := by
  simp [odGet, List.find?_eq_none]

/-- Updating one key leaves the lookup of any other key unchanged. -/
theorem odGet_odSet_ne (d : List (κ₁ × β₁)) (j k : κ₁) (v : β₁) (h : j ≠ k) :
    odGet (odSet d j v) k = odGet d k := by
  induction d with
  | nil => rfl
  | cons p d ih =>
    simp only [odSet, List.map_cons]
    rw [odGet_cons, odGet_cons]
    by_cases hp : p.1 = j
    · rw [if_pos hp]
      simp only
      rw [if_neg h, if_neg (by rw [hp]; exact h)]
      simpa [odSet] using ih
    · rw [if_neg hp]
      by_cases hk : p.1 = k
      · rw [if_pos hk, if_pos hk]
      · rw [if_neg hk, if_neg hk]
        simpa [odSet] using ih

/-- Updating a present key makes the lookup return the new value. -/
theorem odGet_odSet_self (d : List (κ₁ × β₁)) (k : κ₁) (v : β₁)
    (h : odGet d k ≠ none) : odGet (odSet d k v) k = some v := by
  induction d with
  | nil => exact absurd rfl h
  | cons p d ih =>
    simp only [odSet, List.map_cons]
    by_cases hp : p.1 = k
    · rw [if_pos hp, odGet_cons]
      simp
    · rw [if_neg hp, odGet_cons, if_neg hp]
      rw [odGet_cons, if_neg hp] at h
      simpa [odSet] using ih h

/-- Appending a fresh entry is found when the key was absent. -/
theorem odGet_append_single (d : List (κ₁ × β₁)) (k : κ₁) (v : β₁)
    (h : odGet d k = none) : odGet (d ++ [(k, v)]) k = some v := by
  induction d with
  | nil => simp [odGet_cons]
  | cons p d ih =>
    rw [odGet_cons] at h
    rw [List.cons_append, odGet_cons]
    by_cases hp : p.1 = k
    · rw [if_pos hp] at h
      exact absurd h (by simp)
    · rw [if_neg hp] at h
      rw [if_neg hp]
      exact ih h

/-- Appending an entry for another key does not affect a lookup. -/
theorem odGet_append_single_ne (d : List (κ₁ × β₁)) (j k : κ₁) (v : β₁)
    (h : j ≠ k) : odGet (d ++ [(j, v)]) k = odGet d k := by
  induction d with
  | nil => simp [odGet, List.find?, h]
  | cons p d ih =>
    rw [List.cons_append, odGet_cons, odGet_cons]
    by_cases hp : p.1 = k
    · rw [if_pos hp, if_pos hp]
    · rw [if_neg hp, if_neg hp]
      exact ih

/-- Enqueueing under another key does not affect a queue lookup. -/
theorem odGet_enqueue_ne (qs : List (κ₁ × List β₁)) (j k : κ₁) (x : β₁)
    (h : j ≠ k) : odGet (enqueue qs j x) k = odGet qs k := by
  cases hq : odGet qs j with
  | some buf =>
    simp only [enqueue, hq]
    exact odGet_odSet_ne qs j k (buf ++ [x]) h
  | none =>
    simp only [enqueue, hq]
    exact odGet_append_single_ne qs j k [x] h

/-- Enqueueing under a key with no queue creates the singleton queue. -/
theorem odGet_enqueue_fresh (qs : List (κ₁ × List β₁)) (k : κ₁) (x : β₁)
    (h : odGet qs k = none) : odGet (enqueue qs k x) k = some [x] := by
  simp only [enqueue, h]
  exact odGet_append_single qs k [x] h

/-- Enqueueing under a key with a queue appends to it. -/
theorem odGet_enqueue_present (qs : List (κ₁ × List β₁)) (k : κ₁) (x : β₁)
    (buf : List β₁) (h : odGet qs k = some buf) :
    odGet (enqueue qs k x) k = some (buf ++ [x]) := by
  simp only [enqueue, h]
  exact odGet_odSet_self qs k (buf ++ [x]) (by rw [h]; exact Option.some_ne_none buf)

/-- C1: collate_revs on the two worked examples of the spec, with the default
identity key and prefer-new merge (non-empty strings are truthy). -/
theorem c1_collate_revs_examples :
    collate_revs (fun c => c) (fun _ n => n) (fun _ => true)
      ['a', 'b', 'c'] ['a', 'd', 'c'] = ['a', 'b', 'd', 'c'] ∧
    collate_revs (fun c => c) (fun _ n => n) (fun _ => true)
      ['a', 'c'] ['a', 'b', 'c'] = ['a', 'b', 'c'] := by
  constructor
  · rfl
  · rfl

/-- C3: evaluation of collate_revs at the failing input old = [0],
new = [5, 0] over the integers (where 0 is falsy), with the default identity
key and prefer-new merge.  The key 5 precedes the matched key 0 in new, yet
the output is [0, 5]: the preceding new item is not yielded before the merged
matched item, because the swap helper tests the truthiness of the matched
item instead of its presence. -/
theorem c3_falsy_match_swaps :
    collate_revs (fun n => n) (fun _ n => n) (fun n => !decide (n = 0))
      [0] [5, 0] = [0, 5] ∧
    ¬ List.Sublist [5, 0] [0, 5] := by
  refine ⟨rfl, ?_⟩
  decide

/-- C4, counterexample: for both counted blank predicates a call that has
already returned false can be followed by a call (with a truthy argument)
that returns normally instead of raising — for LessThanNBlanks(1) the second
call returns false again, for LessThanNConsecutiveBlanks(1) it even resets
the run and returns true. -/
theorem c4_counterexample :
    (LessThanNBlanks.mk 1 0).call false
      = Except.ok (false, LessThanNBlanks.mk 1 1) ∧
    (LessThanNBlanks.mk 1 1).call true
      = Except.ok (false, LessThanNBlanks.mk 1 1) ∧
    (LessThanNConsecutiveBlanks.mk 1 0 false).call false
      = Except.ok (false, LessThanNConsecutiveBlanks.mk 1 1 false) ∧
    (LessThanNConsecutiveBlanks.mk 1 1 false).call true
      = Except.ok (true, LessThanNConsecutiveBlanks.mk 1 0 true) := by
  refine ⟨rfl, rfl, rfl, rfl⟩

/-- Helper: a LessThanNBlanks call that returned false left the blank count
equal to the limit. -/
theorem ltnb_state_after_false (s s' : LessThanNBlanks) (arg : Bool)
    (h : s.call arg = Except.ok (false, s')) : s'.count = s'.limit := by
  have hmain : ∀ (c : Nat),
      (if s.limit < c then (Except.error () : Except Unit (Bool × LessThanNBlanks))
       else Except.ok (decide (c < s.limit), ⟨s.limit, c⟩)) = Except.ok (false, s') →
      s'.count = s'.limit := by
    intro c hc
    by_cases hlt : s.limit < c
    · rw [if_pos hlt] at hc
      exact absurd hc (by simp)
    · rw [if_neg hlt] at hc
      have h2 := Except.ok.inj hc
      have hdec := congrArg Prod.fst h2
      have hs' := congrArg Prod.snd h2
      simp only at hdec hs'
      have ha := of_decide_eq_false hdec
      rw [← hs']
      simp only
      omega
  cases arg
  · exact hmain (s.count + 1) h
  · exact hmain (s.count + 0) h

/-- Helper: a LessThanNConsecutiveBlanks call that returned false left the
run count equal to the limit. -/
theorem ltncb_state_after_false
    (t t' : LessThanNConsecutiveBlanks) (arg : Bool)
    (h : t.call arg = Except.ok (false, t')) : t'.count = t'.limit := by
  have hmain : ∀ (c : Nat) (b : Bool),
      (if t.limit < c then (Except.error () : Except Unit (Bool × LessThanNConsecutiveBlanks))
       else Except.ok (decide (c < t.limit), ⟨t.limit, c, b⟩)) = Except.ok (false, t') →
      t'.count = t'.limit := by
    intro c b hc
    by_cases hlt : t.limit < c
    · rw [if_pos hlt] at hc
      exact absurd hc (by simp)
    · rw [if_neg hlt] at hc
      have h2 := Except.ok.inj hc
      have hdec := congrArg Prod.fst h2
      have hs' := congrArg Prod.snd h2
      simp only at hdec hs'
      have ha := of_decide_eq_false hdec
      rw [← hs']
      simp only
      omega
  cases arg
  · exact hmain (t.count + 1) false h
  · exact hmain 0 true h

/-- C4, amended: after a call of LessThanNBlanks has returned false, a later
call raises exactly when its argument is blank: with a falsy argument it
raises the usage error, with a truthy argument it returns false again without
raising.  Likewise for LessThanNConsecutiveBlanks, where a truthy argument
even resets the predicate and the call returns normally. -/
theorem c4_amended :
    (∀ (s s' : LessThanNBlanks) (arg : Bool),
       s.call arg = Except.ok (false, s') →
       s'.call false = Except.error () ∧ s'.call true = Except.ok (false, s')) ∧
    (∀ (t t' : LessThanNConsecutiveBlanks) (arg : Bool),
       t.call arg = Except.ok (false, t') →
       t'.call false = Except.error () ∧
       ∃ b t'', t'.call true = Except.ok (b, t'')) := by
  constructor
  · intro s s' arg h
    have hc := ltnb_state_after_false s s' arg h
    constructor
    · have he : s'.call false
          = if s'.limit < s'.count + 1 then Except.error ()
            else Except.ok (decide (s'.count + 1 < s'.limit), ⟨s'.limit, s'.count + 1⟩) := rfl
      rw [he, if_pos (by omega)]
    · have he : s'.call true
          = if s'.limit < s'.count + 0 then Except.error ()
            else Except.ok (decide (s'.count + 0 < s'.limit), ⟨s'.limit, s'.count + 0⟩) := rfl
      rw [he, if_neg (by omega)]
      simp only [Nat.add_zero]
      rw [decide_eq_false (by omega)]
  · intro t t' arg h
    have hc := ltncb_state_after_false t t' arg h
    constructor
    · have he : t'.call false
          = if t'.limit < t'.count + 1 then Except.error ()
            else Except.ok (decide (t'.count + 1 < t'.limit), ⟨t'.limit, t'.count + 1, false⟩) := rfl
      rw [he, if_pos (by omega)]
    · have he : t'.call true
          = if t'.limit < 0 then Except.error ()
            else Except.ok (decide (0 < t'.limit), ⟨t'.limit, 0, true⟩) := rfl
      rw [he, if_neg (by omega)]
      exact ⟨_, _, rfl⟩

/-- C4, witness for the amended theorem at concrete states. -/
theorem c4_witness :
    ((LessThanNBlanks.mk 1 1).call false = Except.error () ∧
     (LessThanNBlanks.mk 1 1).call true
       = Except.ok (false, LessThanNBlanks.mk 1 1)) ∧
    ((LessThanNConsecutiveBlanks.mk 1 1 false).call false = Except.error () ∧
     ∃ b t'', (LessThanNConsecutiveBlanks.mk 1 1 false).call true
       = Except.ok (b, t'')) :=
  ⟨c4_amended.1 ⟨1, 0⟩ ⟨1, 1⟩ false rfl,
   c4_amended.2 ⟨1, 0, false⟩ ⟨1, 1, false⟩ false rfl⟩

/-- C5, counterexample: maybe_single does not signal an error on inputs of
length zero or two — it returns the sequence itself (its documented
behaviour), so only one raises the cardinality error. -/
theorem c5_counterexample :
    maybe_single [(0 : Nat), 1] = Sum.inr [0, 1] ∧
    maybe_single ([] : List Nat) = Sum.inr [] := by
  exact ⟨rfl, rfl⟩

/-- C5, amended: on an input with zero items or more than one item, one
signals the cardinality-violation error, while maybe_single returns the
sequence unchanged (it catches the unpacking error and never raises). -/
theorem c5_amended : ∀ (s : List α), s.length ≠ 1 →
    one s = Except.error () ∧ maybe_single s = Sum.inr s := by
  intro s h
  match s with
  | [] => exact ⟨rfl, rfl⟩
  | [x] => simp at h
  | x :: y :: rest => exact ⟨rfl, rfl⟩

/-- C5, witness for the amended theorem at the empty list. -/
theorem c5_witness :
    one ([] : List Nat) = Except.error () ∧
    maybe_single ([] : List Nat) = Sum.inr [] :=
  c5_amended [] (by decide)

/-- Helper: the first calls of Count(5), while the count stays within the
limit, succeed and report whether the call number is still within it. -/
theorem countTrace_ok (n : Nat) (h : n ≤ 5) :
    countTrace ⟨0, some 5⟩ n
      = Except.ok (decide (n + 1 ≤ 5), ⟨n + 1, some 5⟩) := by
  induction n with
  | zero => rfl
  | succ n ih =>
    have hn : n ≤ 5 := Nat.le_of_succ_le h
    simp only [countTrace, ih hn, Count.call]
    split
    · rename_i hcon
      simp only [decide_eq_true_eq] at hcon
      omega
    · rfl

/-- Helper: from the seventh call of Count(5) on, every call raises. -/
theorem countTrace_err (n : Nat) (h : 5 < n) :
    countTrace ⟨0, some 5⟩ n = Except.error () := by
  induction n with
  | zero => omega
  | succ n ih =>
    rcases Nat.lt_or_ge 5 n with h5 | h5
    · simp only [countTrace, ih h5]
    · have hn : n = 5 := by omega
      subst hn
      simp only [countTrace, countTrace_ok 5 (by omega), Count.call]
      rfl

/-- C8: Count(5) called repeatedly (the call ignores its argument, as the
source does) returns true on exactly the first five calls, false on the
sixth, and raises the usage error on every call after that first false. -/
theorem c8_count_five (n : Nat) :
    (n < 5 → countTrace ⟨0, some 5⟩ n = Except.ok (true, ⟨n + 1, some 5⟩)) ∧
    (countTrace ⟨0, some 5⟩ 5 = Except.ok (false, ⟨6, some 5⟩)) ∧
    (5 < n → countTrace ⟨0, some 5⟩ n = Except.error ()) := by
  refine ⟨?_, ?_, fun h => countTrace_err n h⟩
  · intro h
    have := countTrace_ok n (by omega)
    rwa [decide_eq_true (by omega : n + 1 ≤ 5)] at this
  · have := countTrace_ok 5 (by omega)
    rwa [show decide (5 + 1 ≤ 5) = false from rfl] at this

/-- C8, witness at the third and the eighth call. -/
theorem c8_witness :
    countTrace (Count.mk 0 (some 5)) 2 = Except.ok (true, Count.mk 3 (some 5)) ∧
    countTrace (Count.mk 0 (some 5)) 7 = Except.error () :=
  ⟨(c8_count_five 2).1 (by decide), (c8_count_five 7).2.2 (by decide)⟩

/-- C10, counterexample: with post_size = 0 the middle projection of window
loses the last element (the initial next() on the 1-tuple post stream
shortens the zip), and with pre_size = 0 the pre components are 1-tuples,
not 0-tuples, because the tee loop of nwise never runs. -/
theorem c10_counterexample :
    ¬ ((window [(0 : Nat), 1] 1 0).map (fun t => t.2.1) = [0, 1]) ∧
    (window [(0 : Nat), 1] 1 0).map (fun t => t.2.1) = [0] ∧
    (window [(0 : Nat), 1] 0 1).map (fun t => t.1.length) = [1, 1] := by
  refine ⟨by decide, rfl, rfl⟩

/-- Helper: find_queue keeps fetching and ends in KeyError when the key has
no queue and never appears upstream. -/
theorem find_queue_miss {α₁ : Type u} (f : α₁ → κ₁) (k : κ₁) :
    ∀ (up : List α₁) (qs : List (κ₁ × List α₁)),
      odGet qs k = none → (∀ x ∈ up, f x ≠ k) →
      find_queue f k up qs = Except.error (PyErr.keyError k) := by
  intro up
  induction up with
  | nil =>
    intro qs h0 _
    simp only [find_queue, h0]
  | cons x rest ih =>
    intro qs h0 hall
    have hx : f x ≠ k := hall x (by simp)
    have h0' : odGet (enqueue qs (f x) x) k = none := by
      rw [odGet_enqueue_ne _ _ _ _ hx]
      exact h0
    have hstep : find_queue f k (x :: rest) qs
        = find_queue f k rest (enqueue qs (f x) x) := by
      simp only [find_queue, h0]
    rw [hstep]
    exact ih _ h0' (fun y hy => hall y (by simp [hy]))

/-- Helper: find_queue stops at the first upstream item carrying the key,
has routed exactly the consumed prefix, and returns the singleton queue. -/
theorem find_queue_hit {α₁ : Type u} (f : α₁ → κ₁) (k : κ₁) :
    ∀ (pre : List α₁) (x : α₁) (post : List α₁) (qs : List (κ₁ × List α₁)),
      odGet qs k = none → (∀ y ∈ pre, f y ≠ k) → f x = k →
      find_queue f k (pre ++ x :: post) qs
        = Except.ok ([x], ⟨post, (pre ++ [x]).foldl (fun d y => enqueue d (f y) y) qs⟩) := by
  intro pre
  induction pre with
  | nil =>
    intro x post qs h0 _ hx
    have hsome : odGet (enqueue qs (f x) x) k = some [x] := by
      rw [hx]
      exact odGet_enqueue_fresh qs k x h0
    have hstep : find_queue f k ([] ++ x :: post) qs
        = find_queue f k post (enqueue qs (f x) x) := by
      simp only [List.nil_append, find_queue, h0]
    rw [hstep]
    cases post <;> simp only [find_queue, hsome, List.nil_append, List.foldl_cons, List.foldl_nil]
  | cons y pre ih =>
    intro x post qs h0 hpre hx
    have hy : f y ≠ k := hpre y (by simp)
    have h0' : odGet (enqueue qs (f y) y) k = none := by
      rw [odGet_enqueue_ne _ _ _ _ hy]
      exact h0
    have hstep : find_queue f k ((y :: pre) ++ x :: post) qs
        = find_queue f k (pre ++ x :: post) (enqueue qs (f y) y) := by
      simp only [List.cons_append, find_queue, h0]
      rfl
    rw [hstep, ih x post _ h0' (fun z hz => hpre z (by simp [hz])) hx]
    simp only [List.cons_append, List.foldl_cons]

/-- C6: looking up a key with no queue yet pulls from the upstream until the
key appears or the upstream is exhausted.  If the key never appears the
lookup fails with a KeyError carrying the requested key, a signal distinct
from the StopIteration end-of-sequence signal; if the key appears after a
prefix of other-keyed items, exactly that prefix plus the matching item are
consumed and routed, and the matching item's fresh queue is returned. -/
theorem c6_groupby_key_lookup {α₁ : Type u} (f : α₁ → κ₁) (k : κ₁)
    (up : List α₁) (qs : List (κ₁ × List α₁))
    (hunseen : odGet qs k = none) :
    ((∀ x ∈ up, f x ≠ k) →
       find_queue f k up qs = Except.error (PyErr.keyError k) ∧
       (Except.error (PyErr.keyError k) :
           Except (PyErr κ₁) (List α₁ × GroupbySaved α₁ κ₁))
         ≠ Except.error PyErr.stopIteration) ∧
    (∀ pre x post, up = pre ++ x :: post →
       (∀ y ∈ pre, f y ≠ k) → f x = k →
       find_queue f k up qs
         = Except.ok ([x], ⟨post, (pre ++ [x]).foldl (fun d y => enqueue d (f y) y) qs⟩)) := by
  constructor
  · intro hall
    exact ⟨find_queue_miss f k up qs hunseen hall, by simp⟩
  · intro pre x post hup hpre hx
    subst hup
    exact find_queue_hit f k pre x post qs hunseen hpre hx

/-- Helper: the buffer contents after an enqueue. -/
theorem bufD_enqueue (qs : List (κ₁ × List β₁)) (j k : κ₁) (x : β₁) :
    bufD (enqueue qs j x) k = if k = j then bufD qs j ++ [x] else bufD qs k := by
  by_cases h : k = j
  · subst h
    rw [if_pos rfl]
    cases hq : odGet qs k with
    | none => simp [bufD, odGet_enqueue_fresh qs k x hq, hq]
    | some buf => simp [bufD, odGet_enqueue_present qs k x buf hq, hq]
  · rw [if_neg h]
    simp [bufD, odGet_enqueue_ne qs j k x (fun hjk => h hjk.symm)]

/-- Helper: fuel accounting for a fetch step while the drained buffer is
empty. -/
theorem drain_fetch_measure (f : β₁ → κ₁) (k : κ₁) (qs : List (κ₁ × List β₁))
    (y : β₁) (rest : List β₁) (fuel : Nat) (hbq : bufD qs k = [])
    (h : 2 * (y :: rest).length + (bufD qs k).length < fuel + 1) :
    2 * rest.length + (bufD (enqueue qs (f y) y) k).length < fuel := by
  rw [bufD_enqueue]
  rw [hbq] at h
  simp only [List.length_cons, List.length_nil] at h
  by_cases hyk : k = f y
  · rw [if_pos hyk, ← hyk, hbq]
    simp only [List.nil_append, List.length_cons, List.length_nil]
    omega
  · rw [if_neg hyk, hbq]
    simp only [List.length_nil]
    omega

/-- Helper: reassembling the drained items and the sibling buffers across a
fetch step taken while the drained buffer is empty. -/
theorem drain_fetch_assemble (f : β₁ → κ₁) (k : κ₁) (qs : List (κ₁ × List β₁))
    (y : β₁) (rest : List β₁) (hbq : bufD qs k = [])
    (r : List β₁ × GroupbySaved β₁ κ₁)
    (h1 : r.1 = bufD (enqueue qs (f y) y) k
          ++ rest.filter (fun x => decide (f x = k)))
    (h3 : ∀ j, bufD r.2.queues j
          = if j = k then []
            else bufD (enqueue qs (f y) y) j
              ++ rest.filter (fun x => decide (f x = j))) :
    r.1 = bufD qs k ++ (y :: rest).filter (fun x => decide (f x = k)) ∧
    (∀ j, bufD r.2.queues j
        = if j = k then []
          else bufD qs j ++ (y :: rest).filter (fun x => decide (f x = j))) := by
  constructor
  · rw [h1, bufD_enqueue, hbq]
    simp only [List.nil_append, List.filter_cons]
    by_cases hyk : k = f y
    · subst hyk
      rw [if_pos rfl, hbq]
      simp
    · rw [if_neg hyk, if_neg (by simp only [decide_eq_true_eq]; exact fun hc => hyk hc.symm)]
      simp
  · intro j
    rw [h3 j]
    by_cases hjk : j = k
    · rw [if_pos hjk, if_pos hjk]
    · rw [if_neg hjk, if_neg hjk, bufD_enqueue]
      simp only [List.filter_cons]
      by_cases hjy : j = f y
      · subst hjy
        rw [if_pos rfl, if_pos (by simp)]
        simp
      · rw [if_neg hjy, if_neg (by simp only [decide_eq_true_eq]; exact fun hc => hjy hc.symm)]

/-- Helper: full specification of drainF with sufficient fuel.  Draining the
queue at a key yields its buffered items followed by every upstream item of
that key in order; it exhausts the upstream entirely; it empties the drained
buffer; and every sibling queue ends up holding its old buffer followed by
the upstream items routed to it, in order. -/
theorem drainF_spec (f : β₁ → κ₁) (k : κ₁) :
    ∀ (fuel : Nat) (up : List β₁) (qs : List (κ₁ × List β₁)),
      2 * up.length + (bufD qs k).length < fuel →
      (drainF f k fuel up qs).1
          = bufD qs k ++ up.filter (fun x => decide (f x = k)) ∧
      (drainF f k fuel up qs).2.sequence = [] ∧
      (∀ j, bufD (drainF f k fuel up qs).2.queues j
          = if j = k then []
            else bufD qs j ++ up.filter (fun x => decide (f x = j))) := by
  intro fuel
  induction fuel with
  | zero =>
    intro up qs h
    omega
  | succ fuel ih =>
    intro up qs h
    cases hq : odGet qs k with
    | some buf =>
      cases buf with
      | cons x b =>
        have hbq : bufD qs k = x :: b := by simp [bufD, hq]
        have hset_k : odGet (odSet qs k b) k = some b :=
          odGet_odSet_self qs k b (by rw [hq]; simp)
        have hstep : drainF f k (fuel + 1) up qs
            = ((drainF f k fuel up (odSet qs k b)).1.cons x,
               (drainF f k fuel up (odSet qs k b)).2) := by
          simp only [drainF, hq]
        have hm : 2 * up.length + (bufD (odSet qs k b) k).length < fuel := by
          have hb : bufD (odSet qs k b) k = b := by simp [bufD, hset_k]
          rw [hb]
          rw [hbq] at h
          simp only [List.length_cons] at h
          omega
        obtain ⟨h1, h2, h3⟩ := ih up (odSet qs k b) hm
        refine ⟨?_, by rw [hstep]; exact h2, ?_⟩
        · rw [hstep]
          show x :: (drainF f k fuel up (odSet qs k b)).1
              = bufD qs k ++ List.filter (fun x => decide (f x = k)) up
          have hb : bufD (odSet qs k b) k = b := by simp [bufD, hset_k]
          rw [h1, hb, hbq]
          rfl
        · intro j
          rw [hstep]
          show bufD (drainF f k fuel up (odSet qs k b)).2.queues j = _
          rw [h3 j]
          by_cases hjk : j = k
          · rw [if_pos hjk, if_pos hjk]
          · rw [if_neg hjk, if_neg hjk]
            have : bufD (odSet qs k b) j = bufD qs j := by
              simp [bufD, odGet_odSet_ne qs k j b (fun hkj => hjk hkj.symm)]
            rw [this]
      | nil =>
        have hbq : bufD qs k = [] := by simp [bufD, hq]
        cases up with
        | nil =>
          have hstep : drainF f k (fuel + 1) [] qs = ([], ⟨[], qs⟩) := by
            simp only [drainF, hq]
          rw [hstep]
          refine ⟨by simp [hbq], rfl, ?_⟩
          intro j
          by_cases hjk : j = k
          · subst hjk
            simp [hbq]
          · simp [hjk]
        | cons y rest =>
          have hstep : drainF f k (fuel + 1) (y :: rest) qs
              = drainF f k fuel rest (enqueue qs (f y) y) := by
            simp only [drainF, hq]
          obtain ⟨h1, h2, h3⟩ := ih rest (enqueue qs (f y) y)
            (drain_fetch_measure f k qs y rest fuel hbq h)
          obtain ⟨g1, g3⟩ := drain_fetch_assemble f k qs y rest hbq
            (drainF f k fuel rest (enqueue qs (f y) y)) h1 h3
          rw [hstep]
          exact ⟨g1, h2, g3⟩
    | none =>
      have hbq : bufD qs k = [] := by simp [bufD, hq]
      cases up with
      | nil =>
        have hstep : drainF f k (fuel + 1) [] qs = ([], ⟨[], qs⟩) := by
          simp only [drainF, hq]
        rw [hstep]
        refine ⟨by simp [hbq], rfl, ?_⟩
        intro j
        by_cases hjk : j = k
        · subst hjk
          simp [hbq]
        · simp [hjk]
      | cons y rest =>
        have hstep : drainF f k (fuel + 1) (y :: rest) qs
            = drainF f k fuel rest (enqueue qs (f y) y) := by
          simp only [drainF, hq]
        obtain ⟨h1, h2, h3⟩ := ih rest (enqueue qs (f y) y)
          (drain_fetch_measure f k qs y rest fuel hbq h)
        obtain ⟨g1, g3⟩ := drain_fetch_assemble f k qs y rest hbq
          (drainF f k fuel rest (enqueue qs (f y) y)) h1 h3
        rw [hstep]
        exact ⟨g1, h2, g3⟩

/-- Helper: specification of drain, the fuelled drainF at its adequate
fuel. -/
theorem drain_spec (f : β₁ → κ₁) (k : κ₁) (s : GroupbySaved β₁ κ₁) :
    (drain f k s).1
        = bufD s.queues k ++ s.sequence.filter (fun x => decide (f x = k)) ∧
    (drain f k s).2.sequence = [] ∧
    (∀ j, bufD (drain f k s).2.queues j
        = if j = k then []
          else bufD s.queues j ++ s.sequence.filter (fun x => decide (f x = j))) :=
  drainF_spec f k (2 * s.sequence.length + (bufD s.queues k).length + 1)
    s.sequence s.queues (by omega)

/-- Helper: on an exhausted upstream, draining distinct keys in turn reads
off their buffers. -/
theorem drainAll_buffers (f : β₁ → κ₁) :
    ∀ (ks : List κ₁) (qs : List (κ₁ × List β₁)), ks.Nodup →
      drainAll f ⟨[], qs⟩ ks = ks.map (fun k => bufD qs k) := by
  intro ks
  induction ks with
  | nil => intro qs _; rfl
  | cons k ks ih =>
    intro qs hnd
    rcases List.nodup_cons.mp hnd with ⟨hk, hnd'⟩
    obtain ⟨h1, h2, h3⟩ := drain_spec f k ⟨[], qs⟩
    have hst : (drain f k ⟨[], qs⟩).2 = ⟨[], (drain f k ⟨[], qs⟩).2.queues⟩ := by
      cases hd : (drain f k ⟨[], qs⟩).2 with
      | mk sq qu =>
        rw [hd] at h2
        simp only at h2
        rw [h2]
    simp only [drainAll]
    rw [h1, hst, ih _ hnd']
    simp only [List.filter_nil, List.append_nil, List.map_cons]
    congr 1
    apply List.map_congr_left
    intro j hj
    have hjni : ¬ j = k := fun hjk => hk (hjk ▸ hj)
    rw [h3 j, if_neg hjni]
    simp

/-- Helper: draining every key of a fresh partitioner in turn yields the
per-key filters of the upstream. -/
theorem drainAll_filters (f : β₁ → κ₁) (xs : List β₁) :
    ∀ (ks : List κ₁), ks.Nodup →
      drainAll f ⟨xs, []⟩ ks
        = ks.map (fun k => xs.filter (fun x => decide (f x = k))) := by
  intro ks
  cases ks with
  | nil => intro _; rfl
  | cons k ks =>
    intro hnd
    rcases List.nodup_cons.mp hnd with ⟨hk, hnd'⟩
    obtain ⟨h1, h2, h3⟩ := drain_spec f k ⟨xs, []⟩
    have hst : (drain f k ⟨xs, []⟩).2 = ⟨[], (drain f k ⟨xs, []⟩).2.queues⟩ := by
      cases hd : (drain f k ⟨xs, []⟩).2 with
      | mk sq qu =>
        rw [hd] at h2
        simp only at h2
        rw [h2]
    simp only [drainAll]
    rw [h1, hst, drainAll_buffers f ks _ hnd']
    have hhead : bufD ({ sequence := xs, queues := [] } : GroupbySaved β₁ κ₁).queues k
        ++ List.filter (fun x => decide (f x = k))
             ({ sequence := xs, queues := [] } : GroupbySaved β₁ κ₁).sequence
        = List.filter (fun x => decide (f x = k)) xs := by
      simp [bufD, odGet]
    rw [hhead]
    simp only [List.map_cons]
    congr 1
    apply List.map_congr_left
    intro j hj
    have hjni : ¬ j = k := fun hjk => hk (hjk ▸ hj)
    rw [h3 j, if_neg hjni]
    simp [bufD, odGet]

/-- Helper: the count of an element in a per-key filter of the list. -/
theorem count_filter_key [DecidableEq β₁] (xs : List β₁) (f : β₁ → κ₁)
    (a : β₁) (k : κ₁) :
    (xs.filter (fun x => decide (f x = k))).count a
      = if f a = k then xs.count a else 0 := by
  by_cases hfa : f a = k
  · rw [if_pos hfa]
    exact List.count_filter (by simp [hfa])
  · rw [if_neg hfa]
    rw [List.count_eq_zero]
    intro hmem
    rcases List.mem_filter.mp hmem with ⟨_, hp⟩
    exact hfa (by simpa using hp)

/-- Helper: summing a one-hot map over a duplicate-free key list. -/
theorem sum_ite_mem (c : κ₁) (v : Nat) :
    ∀ (ks : List κ₁), ks.Nodup →
      (ks.map (fun k => if c = k then v else 0)).sum = if c ∈ ks then v else 0 := by
  intro ks
  induction ks with
  | nil => intro _; simp
  | cons k ks ih =>
    intro hnd
    rcases List.nodup_cons.mp hnd with ⟨hk, hnd'⟩
    simp only [List.map_cons, List.sum_cons, List.mem_cons]
    by_cases hck : c = k
    · subst hck
      rw [if_pos rfl, ih hnd', if_neg hk]
      simp
    · rw [if_neg hck, ih hnd']
      simp [hck]

/-- Helper: the per-key filters over the distinct keys partition the list up
to permutation. -/
theorem flatten_filters_perm [DecidableEq β₁] (xs : List β₁) (f : β₁ → κ₁) :
    List.Perm
      (((xs.map f).dedup).map
        (fun k => xs.filter (fun x => decide (f x = k)))).flatten
      xs := by
  rw [List.perm_iff_count]
  intro a
  rw [List.count_flatten, List.map_map]
  have hpt : ((xs.map f).dedup).map (List.count a ∘ fun k => xs.filter (fun x => decide (f x = k)))
      = ((xs.map f).dedup).map (fun k => if f a = k then xs.count a else 0) := by
    apply List.map_congr_left
    intro k _
    exact count_filter_key xs f a k
  rw [hpt, sum_ite_mem (f a) (xs.count a) _ (List.nodup_dedup _)]
  by_cases ha : a ∈ xs
  · rw [if_pos (List.mem_dedup.mpr (List.mem_map_of_mem f ha))]
  · rw [List.count_eq_zero.mpr ha]
    split <;> rfl

/-- C7: fully draining the partitioner started on a sequence with no queues,
over its distinct keys in first-appearance order, yields for each key
exactly the upstream items of that key in upstream order (so no item is
dropped or duplicated and each sub-queue preserves the source order), and
the concatenation of all sub-queues is a permutation of (has the same
multiset as) the upstream sequence. -/
theorem c7_groupby_partition [DecidableEq β₁] (xs : List β₁) (f : β₁ → κ₁) :
    drainAll f ⟨xs, []⟩ ((xs.map f).dedup)
      = ((xs.map f).dedup).map (fun k => xs.filter (fun x => decide (f x = k))) ∧
    List.Perm (drainAll f ⟨xs, []⟩ ((xs.map f).dedup)).flatten xs := by
  have h1 := drainAll_filters f xs ((xs.map f).dedup) (List.nodup_dedup _)
  refine ⟨h1, ?_⟩
  rw [h1]
  exact flatten_filters_perm xs f

/-- Helper: chunking the empty list gives no chunks. -/
theorem chunkedF_nil (fuel m : Nat) : chunkedF fuel m ([] : List β₁) = [] := by
  cases fuel <;> cases m <;> rfl

/-- Helper: with enough fuel, the chunks of a list concatenate back to it. -/
theorem chunkedF_flatten :
    ∀ (fuel m : Nat) (s : List β₁), s.length ≤ fuel →
      (chunkedF fuel (m + 1) s).flatten = s := by
  intro fuel
  induction fuel with
  | zero =>
    intro m s h
    cases s with
    | nil => rfl
    | cons x xs => exact absurd h (by simp)
  | succ fuel ih =>
    intro m s h
    cases s with
    | nil => rfl
    | cons x xs =>
      simp only [List.length_cons] at h
      simp only [chunkedF, List.flatten_cons]
      rw [ih m (xs.drop m) (by simp only [List.length_drop]; omega)]
      simp only [List.cons_append, List.take_append_drop]

/-- Helper: with enough fuel, a non-empty list has at least one chunk. -/
theorem chunkedF_ne_nil (fuel m : Nat) (s : List β₁) (hs : s ≠ [])
    (h : s.length ≤ fuel) : chunkedF fuel (m + 1) s ≠ [] := by
  cases fuel with
  | zero =>
    cases s with
    | nil => exact absurd rfl hs
    | cons x xs => exact absurd h (by simp)
  | succ fuel =>
    cases s with
    | nil => exact absurd rfl hs
    | cons x xs => simp [chunkedF]

/-- Helper: every chunk is non-empty and no longer than the chunk size. -/
theorem chunkedF_mem_length :
    ∀ (fuel m : Nat) (s : List β₁), s.length ≤ fuel →
      ∀ c ∈ chunkedF fuel (m + 1) s, 0 < c.length ∧ c.length ≤ m + 1 := by
  intro fuel
  induction fuel with
  | zero =>
    intro m s h c hc
    cases s with
    | nil => simp [chunkedF_nil] at hc
    | cons x xs => exact absurd h (by simp)
  | succ fuel ih =>
    intro m s h c hc
    cases s with
    | nil => simp [chunkedF_nil] at hc
    | cons x xs =>
      simp only [List.length_cons] at h
      simp only [chunkedF, List.mem_cons] at hc
      rcases hc with hc | hc
      · subst hc
        simp only [List.length_cons, List.length_take]
        omega
      · exact ih m (xs.drop m) (by simp only [List.length_drop]; omega) c hc

/-- Helper: every chunk except the last has length exactly the chunk size. -/
theorem chunkedF_dropLast_length :
    ∀ (fuel m : Nat) (s : List β₁), s.length ≤ fuel →
      ∀ c ∈ (chunkedF fuel (m + 1) s).dropLast, c.length = m + 1 := by
  intro fuel
  induction fuel with
  | zero =>
    intro m s h c hc
    cases s with
    | nil => simp [chunkedF_nil] at hc
    | cons x xs => exact absurd h (by simp)
  | succ fuel ih =>
    intro m s h c hc
    cases s with
    | nil => simp [chunkedF_nil] at hc
    | cons x xs =>
      simp only [List.length_cons] at h
      simp only [chunkedF] at hc
      by_cases hr : xs.drop m = []
      · rw [hr, chunkedF_nil] at hc
        simp at hc
      · have hne : chunkedF fuel (m + 1) (xs.drop m) ≠ [] :=
          chunkedF_ne_nil fuel m (xs.drop m) hr
            (by simp only [List.length_drop]; omega)
        rw [List.dropLast_cons_of_ne_nil hne, List.mem_cons] at hc
        rcases hc with hc | hc
        · subst hc
          have hm : m < xs.length := by
            by_contra hcon
            exact hr (List.drop_eq_nil_of_le (by omega))
          simp only [List.length_cons, List.length_take]
          omega
        · exact ih m (xs.drop m) (by simp only [List.length_drop]; omega) c hc

/-- Helper: a non-empty list has a last element which is a member. -/
theorem getLast?_mem_of_ne_nil (cs : List β₁) (h : cs ≠ []) :
    ∃ l, cs.getLast? = some l ∧ l ∈ cs :=
  ⟨cs.getLast h, List.getLast?_eq_getLast cs h, List.getLast_mem h⟩

/-- C9: for every chunk size n above zero, concatenating the chunks of
grouper_nofill_str in order reconstructs the input exactly, every chunk
except possibly the last has length exactly n, and on a non-empty input the
last chunk has length between 1 and n. -/
theorem c9_grouper_reconstruct (s : List β₁) (n : Nat) (h : 0 < n) :
    (grouper_nofill_str n s).flatten = s ∧
    (∀ c ∈ (grouper_nofill_str n s).dropLast, c.length = n) ∧
    (s ≠ [] → ∃ l, (grouper_nofill_str n s).getLast? = some l ∧
       0 < l.length ∧ l.length ≤ n) := by
  obtain ⟨m, rfl⟩ : ∃ m, n = m + 1 := ⟨n - 1, by omega⟩
  refine ⟨chunkedF_flatten s.length m s le_rfl,
    chunkedF_dropLast_length s.length m s le_rfl, ?_⟩
  intro hs
  obtain ⟨l, hl, hmem⟩ := getLast?_mem_of_ne_nil _
    (chunkedF_ne_nil s.length m s hs le_rfl)
  obtain ⟨h1, h2⟩ := chunkedF_mem_length s.length m s le_rfl l hmem
  exact ⟨l, hl, h1, h2⟩

/-- C9, witness at chunk size 3 on a four-element list. -/
theorem c9_witness :
    (grouper_nofill_str 3 [0, 1, 2, 3]).flatten = [0, 1, 2, 3] ∧
    (∀ c ∈ (grouper_nofill_str 3 [(0 : Nat), 1, 2, 3]).dropLast, c.length = 3) ∧
    ([(0 : Nat), 1, 2, 3] ≠ [] →
      ∃ l, (grouper_nofill_str 3 [(0 : Nat), 1, 2, 3]).getLast? = some l ∧
        0 < l.length ∧ l.length ≤ 3) :=
  c9_grouper_reconstruct [0, 1, 2, 3] 3 (by decide)

/-- Helper: the heads of a family of views miss as soon as one view is
empty. -/
theorem heads?_eq_none_of_empty_mem :
    ∀ (vs : List (List β₁)), [] ∈ vs → heads? vs = none := by
  intro vs
  induction vs with
  | nil => intro h; simp at h
  | cons v vs ih =>
    intro h
    cases v with
    | nil => rfl
    | cons x v =>
      rcases List.mem_cons.mp h with h | h
      · exact absurd h.symm (by simp)
      · simp [heads?, ih h]

/-- Helper: the heads of the views of a list advanced by 0, 1, ..., m - 1
are its first m elements, when it is long enough. -/
theorem heads?_drops :
    ∀ (m : Nat) (ys : List β₁), m ≤ ys.length →
      heads? ((List.range m).map (fun i => ys.drop i)) = some (ys.take m) := by
  intro m
  induction m with
  | zero => intro ys _; rfl
  | succ m ih =>
    intro ys h
    cases ys with
    | nil => exact absurd h (by simp)
    | cons y ys =>
      rw [List.range_succ_eq_map]
      simp only [List.map_cons, List.map_map, List.drop_zero]
      have hmap : List.map ((fun i => (y :: ys).drop i) ∘ Nat.succ) (List.range m)
          = List.map (fun i => ys.drop i) (List.range m) := by
        apply List.map_congr_left
        intro i _
        simp [Function.comp, List.drop_succ_cons]
      rw [hmap]
      simp only [heads?]
      rw [ih ys (by simpa using h)]
      rfl

/-- Helper: zipping views one of which is empty yields nothing. -/
theorem zipViews2_empty_mem (v : List β₁) (vs : List (List β₁))
    (h : [] ∈ vs) : zipViews2 v vs = [] := by
  cases v with
  | nil => rfl
  | cons x v => simp [zipViews2, heads?_eq_none_of_empty_mem vs h]

/-- Helper: closed form of zip over the views of a list advanced by
0, 1, ..., m - 1 offsets: the lists of m adjacent elements. -/
theorem zipViews_drops (m : Nat) (hm : 1 ≤ m) :
    ∀ (ys : List β₁),
      zipViews ((List.range m).map (fun i => ys.drop i))
        = (List.range (ys.length + 1 - m)).map (fun i => (ys.drop i).take m) := by
  obtain ⟨m', rfl⟩ : ∃ m', m = m' + 1 := ⟨m - 1, by omega⟩
  intro ys
  induction ys with
  | nil =>
    rw [List.range_succ_eq_map]
    simp only [List.map_cons, List.drop_nil]
    rw [show ([] : List β₁).length + 1 - (m' + 1) = 0 by simp]
    rfl
  | cons y ys ih =>
    by_cases hlen : (y :: ys).length < m' + 1
    · have hempty : [] ∈ (List.range (m' + 1)).map (fun i => (y :: ys).drop i) := by
        rw [List.mem_map]
        exact ⟨(y :: ys).length, List.mem_range.mpr hlen, List.drop_length _⟩
      have hz : zipViews ((List.range (m' + 1)).map (fun i => (y :: ys).drop i)) = [] := by
        cases hv : (List.range (m' + 1)).map (fun i => (y :: ys).drop i) with
        | nil => rfl
        | cons v vs =>
          rw [hv] at hempty
          rcases List.mem_cons.mp hempty with hh | hh
          · rw [← hh]
            rfl
          · exact zipViews2_empty_mem v vs hh
      rw [hz, show (y :: ys).length + 1 - (m' + 1) = 0 by simp at hlen ⊢; omega]
      rfl
    · push_neg at hlen
      have hm' : m' ≤ ys.length := by simpa using hlen
      rw [List.range_succ_eq_map]
      simp only [List.map_cons, List.map_map, List.drop_zero]
      have hmap : List.map ((fun i => (y :: ys).drop i) ∘ Nat.succ) (List.range m')
          = List.map (fun i => ys.drop i) (List.range m') := by
        apply List.map_congr_left
        intro i _
        simp [Function.comp, List.drop_succ_cons]
      rw [hmap]
      show zipViews2 (y :: ys) (List.map (fun i => ys.drop i) (List.range m')) = _
      simp only [zipViews2, heads?_drops m' ys hm']
      have htails : (List.map (fun i => ys.drop i) (List.range m')).map List.tail
          = List.map (fun i => ys.drop (i + 1)) (List.range m') := by
        rw [List.map_map]
        apply List.map_congr_left
        intro i _
        simp [Function.comp, List.tail_drop]
      rw [htails]
      have hrec : zipViews2 ys (List.map (fun i => ys.drop (i + 1)) (List.range m'))
          = zipViews ((List.range (m' + 1)).map (fun i => ys.drop i)) := by
        rw [List.range_succ_eq_map]
        simp only [List.map_cons, List.map_map, List.drop_zero]
        rfl
      rw [hrec, ih]
      rw [show (y :: ys).length + 1 - (m' + 1) = (ys.length + 1 - (m' + 1)) + 1 by
        simp only [List.length_cons]; omega]
      rw [List.range_succ_eq_map]
      simp only [List.map_cons, List.map_map, List.drop_zero]
      congr 1

/-- Helper: closed form of nwise for a window size of at least one. -/
theorem nwise_eq (ys : List β₁) (m : Nat) (hm : 1 ≤ m) :
    nwise ys m
      = (List.range (ys.length + 1 - m)).map (fun i => (ys.drop i).take m) := by
  rw [nwise, show max m 1 = m by omega]
  exact zipViews_drops m hm ys

/-- Helper: the middle projection of a three-way zip is the middle list when
the other two are at least as long. -/
theorem zip3_map_mid {γ : Type u} {δ : Type u} {ε : Type u} :
    ∀ (bs : List δ) (as : List γ) (cs : List ε),
      bs.length ≤ as.length → bs.length ≤ cs.length →
      (zip3 as bs cs).map (fun t => t.2.1) = bs := by
  intro bs
  induction bs with
  | nil =>
    intro as cs _ _
    cases as <;> cases cs <;> rfl
  | cons b bs ih =>
    intro as cs ha hc
    cases as with
    | nil => exact absurd ha (by simp)
    | cons a as =>
      cases cs with
      | nil => exact absurd hc (by simp)
      | cons c cs =>
        simp only [zip3, List.map_cons, List.cons.injEq, true_and]
        exact ih as cs (by simpa using ha) (by simpa using hc)

/-- Helper: the components of any zipped triple come from the zipped
lists. -/
theorem zip3_mem {γ : Type u} {δ : Type u} {ε : Type u} :
    ∀ (as : List γ) (bs : List δ) (cs : List ε) (t : γ × δ × ε),
      t ∈ zip3 as bs cs → t.1 ∈ as ∧ t.2.2 ∈ cs := by
  intro as
  induction as with
  | nil =>
    intro bs cs t ht
    cases bs <;> cases cs <;> simp [zip3] at ht
  | cons a as ih =>
    intro bs cs t ht
    cases bs with
    | nil => cases cs <;> simp [zip3] at ht
    | cons b bs =>
      cases cs with
      | nil => simp [zip3] at ht
      | cons c cs =>
        simp only [zip3, List.mem_cons] at ht
        rcases ht with ht | ht
        · subst ht
          exact ⟨by simp, by simp⟩
        · obtain ⟨h1, h2⟩ := ih bs cs t ht
          exact ⟨by simp [h1], by simp [h2]⟩

/-- Helper: a three-way zip with an empty middle list is empty. -/
theorem zip3_nil_mid {γ : Type u} {δ : Type u} {ε : Type u}
    (as : List γ) (cs : List ε) : zip3 as ([] : List δ) cs = [] := by
  cases as <;> cases cs <;> rfl

/-- Helper: entries of the first list beyond the middle list's length never
reach the three-way zip. -/
theorem zip3_append_extra {γ : Type u} {δ : Type u} {ε : Type u} :
    ∀ (bs : List δ) (as : List γ) (cs : List ε) (ds : List γ),
      bs.length ≤ as.length →
      zip3 (as ++ ds) bs cs = zip3 as bs cs := by
  intro bs
  induction bs with
  | nil =>
    intro as cs ds _
    rw [zip3_nil_mid, zip3_nil_mid]
  | cons b bs ih =>
    intro as cs ds h
    cases as with
    | nil => exact absurd h (by simp)
    | cons a as =>
      cases cs with
      | nil => rfl
      | cons c cs =>
        show (a, b, c) :: zip3 (as ++ ds) bs cs = (a, b, c) :: zip3 as bs cs
        rw [ih as cs ds (by simpa using h)]

/-- Helper: the slice of the None-padded-on-the-left stream that becomes the
i-th pre context: pre - i copies of None followed by the i input items
preceding position i (all of them when i reaches pre). -/
theorem pre_context_slice (xs : List β₁) (pre i : Nat) :
    ((List.replicate pre (none : Option β₁) ++ xs.map some).drop i).take pre
      = List.replicate (pre - i) none
        ++ ((xs.drop (i - pre)).take (min pre i)).map some := by
  rw [List.drop_append_eq_append_drop, List.drop_replicate, List.length_replicate]
  rw [List.take_append_eq_append_take, List.take_replicate, List.length_replicate]
  rw [List.map_take, List.map_drop]
  rw [show min pre (pre - i) = pre - i from by omega,
    show pre - (pre - i) = min pre i from by omega]

/-- Helper: the slice of the None-padded-on-the-right stream that becomes
the i-th post context: the input items following position i, then None
padding once the input runs out. -/
theorem post_context_slice (xs : List β₁) (post i : Nat) (hi : i < xs.length) :
    ((xs.map some ++ List.replicate post (none : Option β₁)).drop (i + 1)).take post
      = ((xs.drop (i + 1)).take post).map some
        ++ List.replicate (post - (xs.length - (i + 1))) none := by
  rw [List.drop_append_eq_append_drop, List.length_map]
  rw [show i + 1 - xs.length = 0 from by omega, List.drop_zero]
  rw [List.take_append_eq_append_take, List.map_take, List.map_drop,
    List.length_drop, List.length_map, List.take_replicate,
    show min (post - (xs.length - (i + 1))) post = post - (xs.length - (i + 1)) from by omega]

/-- C10, amended: for pre_size and post_size of at least one, the middle
projection of window reconstructs the input exactly (the i-th triple's
middle element is the i-th input element); the pre and post components of
every triple are tuples of length exactly pre_size and post_size; and the
window is exactly the triple-wise pairing of each input element with its
None-padded contexts: the i-th pre component is pre_size - i copies of None
followed by the items preceding position i, and the i-th post component is
the items following position i followed by None padding once the input runs
out — so the boundary positions, and only those, hold None.  Sizes of zero
behave differently: the tee loop of nwise still produces one view, so the
contexts are 1-tuples, and a post_size of zero shortens the output by
one. -/
theorem c10_window_roundtrip (xs : List β₁) (pre post : Nat)
    (hpre : 1 ≤ pre) (hpost : 1 ≤ post) :
    (window xs pre post).map (fun t => t.2.1) = xs ∧
    (∀ t ∈ window xs pre post, t.1.length = pre ∧ t.2.2.length = post) ∧
    window xs pre post
      = zip3
          ((List.range xs.length).map (fun i =>
              List.replicate (pre - i) (none : Option β₁)
                ++ ((xs.drop (i - pre)).take (min pre i)).map some))
          xs
          ((List.range xs.length).map (fun i =>
              ((xs.drop (i + 1)).take post).map some
                ++ List.replicate (post - (xs.length - (i + 1))) (none : Option β₁))) := by
  have hys₁ : (List.replicate pre (none : Option β₁) ++ xs.map some).length
      = pre + xs.length := by simp
  have hys₂ : (xs.map some ++ List.replicate post (none : Option β₁)).length
      = xs.length + post := by simp
  have hpre_view : nwise (List.replicate pre (none : Option β₁) ++ xs.map some) pre
      = (List.range (xs.length + 1)).map
          (fun i => ((List.replicate pre (none : Option β₁) ++ xs.map some).drop i).take pre) := by
    rw [nwise_eq _ _ hpre, hys₁, show pre + xs.length + 1 - pre = xs.length + 1 by omega]
  have hpost_view :
      (nwise (xs.map some ++ List.replicate post (none : Option β₁)) post).drop 1
      = (List.range xs.length).map
          (fun i => ((xs.map some ++ List.replicate post (none : Option β₁)).drop (i + 1)).take post) := by
    rw [nwise_eq _ _ hpost, hys₂, show xs.length + post + 1 - post = xs.length + 1 by omega]
    rw [List.range_succ_eq_map]
    simp only [List.map_cons, List.map_map, List.drop_succ_cons, List.drop_one]
    rfl
  have hw : window xs pre post
      = zip3
          ((List.range (xs.length + 1)).map
            (fun i => ((List.replicate pre (none : Option β₁) ++ xs.map some).drop i).take pre))
          xs
          ((List.range xs.length).map
            (fun i => ((xs.map some ++ List.replicate post (none : Option β₁)).drop (i + 1)).take post)) := by
    rw [window, hpre_view, hpost_view]
  refine ⟨?_, ?_, ?_⟩
  · rw [hw]
    exact zip3_map_mid xs _ _ (by simp) (by simp)
  · intro t ht
    rw [hw] at ht
    obtain ⟨h1, h2⟩ := zip3_mem _ _ _ t ht
    constructor
    · rcases List.mem_map.mp h1 with ⟨i, hi, hti⟩
      rw [← hti]
      simp only [List.length_take, List.length_drop, hys₁]
      rw [List.mem_range] at hi
      omega
    · rcases List.mem_map.mp h2 with ⟨i, hi, hti⟩
      rw [← hti]
      simp only [List.length_take, List.length_drop, hys₂]
      rw [List.mem_range] at hi
      omega
  · rw [hw]
    have hsplit : (List.range (xs.length + 1)).map
          (fun i => ((List.replicate pre (none : Option β₁) ++ xs.map some).drop i).take pre)
        = ((List.range xs.length).map
            (fun i => ((List.replicate pre (none : Option β₁) ++ xs.map some).drop i).take pre))
          ++ [((List.replicate pre (none : Option β₁) ++ xs.map some).drop xs.length).take pre] := by
      rw [List.range_succ, List.map_append]
      rfl
    rw [hsplit, zip3_append_extra xs _ _ _ (by simp)]
    have h1 : (List.range xs.length).map
          (fun i => ((List.replicate pre (none : Option β₁) ++ xs.map some).drop i).take pre)
        = (List.range xs.length).map (fun i =>
            List.replicate (pre - i) (none : Option β₁)
              ++ ((xs.drop (i - pre)).take (min pre i)).map some) :=
      List.map_congr_left (fun i _ => pre_context_slice xs pre i)
    have h2 : (List.range xs.length).map
          (fun i => ((xs.map some ++ List.replicate post (none : Option β₁)).drop (i + 1)).take post)
        = (List.range xs.length).map (fun i =>
            ((xs.drop (i + 1)).take post).map some
              ++ List.replicate (post - (xs.length - (i + 1))) (none : Option β₁)) :=
      List.map_congr_left (fun i hi => post_context_slice xs post i (List.mem_range.mp hi))
    rw [h1, h2]

/-- C10, witness at pre_size 2, post_size 1 on a three-element list. -/
theorem c10_witness :
    (window [(0 : Nat), 1, 2] 2 1).map (fun t => t.2.1) = [0, 1, 2] ∧
    (∀ t ∈ window [(0 : Nat), 1, 2] 2 1, t.1.length = 2 ∧ t.2.2.length = 1) ∧
    window [(0 : Nat), 1, 2] 2 1
      = zip3
          ((List.range [(0 : Nat), 1, 2].length).map (fun i =>
              List.replicate (2 - i) (none : Option Nat)
                ++ (([(0 : Nat), 1, 2].drop (i - 2)).take (min 2 i)).map some))
          [(0 : Nat), 1, 2]
          ((List.range [(0 : Nat), 1, 2].length).map (fun i =>
              (([(0 : Nat), 1, 2].drop (i + 1)).take 1).map some
                ++ List.replicate (1 - ([(0 : Nat), 1, 2].length - (i + 1))) (none : Option Nat))) :=
  c10_window_roundtrip [0, 1, 2] 2 1 (by decide) (by decide)

/-- C6, witness: key 2 is found after consuming the prefix [1]; key 5 is
never found in [1] and yields KeyError 5. -/
theorem c6_witness :
    find_queue (fun n => n) 2 [1, 2, 3] ([] : List (Nat × List Nat))
      = Except.ok ([2], ⟨[3], ([1] ++ [2]).foldl (fun d y => enqueue d y y) []⟩) ∧
    find_queue (fun n => n) 5 [1] ([] : List (Nat × List Nat))
      = Except.error (PyErr.keyError 5) :=
  ⟨(c6_groupby_key_lookup (fun n => n) 2 [1, 2, 3] [] rfl).2 [1] 2 [3] rfl
     (by decide) rfl,
   ((c6_groupby_key_lookup (fun n => n) 5 [1] [] rfl).1 (by decide)).1⟩

/-! ### Key bookkeeping for collate_revs -/

/-- Helper: a key is a member of the key list exactly when some entry has
it. -/
theorem mem_odKeys_iff (d : List (κ₁ × β₁)) (k : κ₁) :
    k ∈ odKeys d ↔ ∃ p ∈ d, p.1 = k := by
  simp [odKeys, List.mem_map]

/-- Helper: a missing lookup is absence from the keys. -/
theorem odGet_eq_none_iff_not_mem (d : List (κ₁ × β₁)) (k : κ₁) :
    odGet d k = none ↔ k ∉ odKeys d := by
  rw [odGet_eq_none_iff, mem_odKeys_iff]
  constructor
  · rintro h ⟨p, hp, hk⟩
    exact h p hp hk
  · intro h p hp hk
    exact h ⟨p, hp, hk⟩

/-- Helper: a successful lookup comes from an entry with that key. -/
theorem odGet_eq_some_mem (d : List (κ₁ × β₁)) (k : κ₁) (v : β₁)
    (h : odGet d k = some v) : ∃ q ∈ d, q.1 = k ∧ q.2 = v := by
  simp only [odGet] at h
  cases hf : d.find? (fun p => decide (p.1 = k)) with
  | none =>
    rw [hf] at h
    exact absurd h (by simp)
  | some q =>
    rw [hf] at h
    simp only [Option.map] at h
    have hq1 : q.1 = k := by simpa using List.find?_some hf
    exact ⟨q, List.mem_of_find?_eq_some hf, hq1, by simpa using h⟩

/-- Helper: the keys of an in-place update are unchanged. -/
theorem odKeys_odSet (d : List (κ₁ × β₁)) (k : κ₁) (v : β₁) :
    odKeys (odSet d k v) = odKeys d := by
  simp only [odKeys, odSet, List.map_map]
  apply List.map_congr_left
  intro p _
  by_cases hp : p.1 = k
  · simp [Function.comp, hp]
  · simp [Function.comp, hp]

/-- Helper: key membership after an insertion. -/
theorem odKeys_odInsert_mem (d : List (κ₁ × β₁)) (j k : κ₁) (v : β₁) :
    k ∈ odKeys (odInsert d j v) ↔ k ∈ odKeys d ∨ k = j := by
  simp only [odInsert]
  by_cases hm : odMem j d
  · rw [if_pos hm, odKeys_odSet]
    constructor
    · exact fun h => Or.inl h
    · rintro (h | h)
      · exact h
      · subst h
        simp only [odMem, List.any_eq_true, decide_eq_true_eq] at hm
        rcases hm with ⟨p, hp, hpk⟩
        exact (mem_odKeys_iff d k).mpr ⟨p, hp, hpk⟩
  · rw [if_neg hm]
    simp [odKeys]

/-- Helper: insertion preserves duplicate-free keys. -/
theorem odKeys_odInsert_nodup (d : List (κ₁ × β₁)) (j : κ₁) (v : β₁)
    (h : (odKeys d).Nodup) : (odKeys (odInsert d j v)).Nodup := by
  simp only [odInsert]
  by_cases hm : odMem j d
  · rw [if_pos hm, odKeys_odSet]
    exact h
  · rw [if_neg hm]
    have hj : j ∉ odKeys d := by
      intro hmem
      rcases (mem_odKeys_iff d j).mp hmem with ⟨p, hp, hpk⟩
      exact hm (by simp only [odMem, List.any_eq_true, decide_eq_true_eq]; exact ⟨p, hp, hpk⟩)
    simp only [odKeys, List.map_append, List.map_cons, List.map_nil]
    rw [List.nodup_append]
    exact ⟨h, List.nodup_singleton j, by
      intro a ha hb
      simp only [List.mem_singleton] at hb
      subst hb
      exact hj ha⟩

/-- Helper: insertion preserves the key invariant of the entries. -/
theorem odInsert_keyed {γ₁ : Type u} (key : γ₁ → κ₁) (d : List (κ₁ × γ₁)) (x : γ₁)
    (h : ∀ p ∈ d, key p.2 = p.1) :
    ∀ p ∈ odInsert d (key x) x, key p.2 = p.1 := by
  simp only [odInsert]
  by_cases hm : odMem (key x) d
  · rw [if_pos hm]
    intro p hp
    simp only [odSet, List.mem_map] at hp
    rcases hp with ⟨q, hq, hpq⟩
    by_cases hqk : q.1 = key x
    · rw [if_pos hqk] at hpq
      rw [← hpq]
    · rw [if_neg hqk] at hpq
      rw [← hpq]
      exact h q hq
  · rw [if_neg hm]
    intro p hp
    rcases List.mem_append.mp hp with hp | hp
    · exact h p hp
    · simp only [List.mem_singleton] at hp
      rw [hp]

/-- Helper: every entry of the materialised dictionary is stored under the
key of its value. -/
theorem odOfList_keyed {γ₁ : Type u} (key : γ₁ → κ₁) (xs : List γ₁) :
    ∀ p ∈ odOfList key xs, key p.2 = p.1 := by
  have haux : ∀ (ys : List γ₁) (d : List (κ₁ × γ₁)),
      (∀ p ∈ d, key p.2 = p.1) →
      ∀ p ∈ ys.foldl (fun d x => odInsert d (key x) x) d, key p.2 = p.1 := by
    intro ys
    induction ys with
    | nil => intro d h; exact h
    | cons x ys ih =>
      intro d h
      simp only [List.foldl_cons]
      exact ih _ (odInsert_keyed key d x h)
  exact haux xs [] (by intro p hp; simp at hp)

/-- Helper: the materialised dictionary has duplicate-free keys. -/
theorem odOfList_nodup {γ₁ : Type u} (key : γ₁ → κ₁) (xs : List γ₁) :
    (odKeys (odOfList key xs)).Nodup := by
  have haux : ∀ (ys : List γ₁) (d : List (κ₁ × γ₁)),
      (odKeys d).Nodup →
      (odKeys (ys.foldl (fun d x => odInsert d (key x) x) d)).Nodup := by
    intro ys
    induction ys with
    | nil => intro d h; exact h
    | cons x ys ih =>
      intro d h
      simp only [List.foldl_cons]
      exact ih _ (odKeys_odInsert_nodup d (key x) x h)
  exact haux xs [] (by simp [odKeys])

/-- Helper: the keys of the materialised dictionary are the keys of the
input items. -/
theorem odOfList_keys_mem {γ₁ : Type u} (key : γ₁ → κ₁) (xs : List γ₁) (k : κ₁) :
    k ∈ odKeys (odOfList key xs) ↔ k ∈ xs.map key := by
  have haux : ∀ (ys : List γ₁) (d : List (κ₁ × γ₁)),
      k ∈ odKeys (ys.foldl (fun d x => odInsert d (key x) x) d)
        ↔ k ∈ odKeys d ∨ k ∈ ys.map key := by
    intro ys
    induction ys with
    | nil =>
      intro d
      simp
    | cons x ys ih =>
      intro d
      simp only [List.foldl_cons, List.map_cons, List.mem_cons]
      rw [ih, odKeys_odInsert_mem]
      constructor
      · rintro ((h | h) | h)
        · exact Or.inl h
        · exact Or.inr (Or.inl h)
        · exact Or.inr (Or.inr h)
      · rintro (h | h | h)
        · exact Or.inl (Or.inl h)
        · exact Or.inl (Or.inr h)
        · exact Or.inr h
  rw [show odOfList key xs = xs.foldl (fun d x => odInsert d (key x) x) [] from rfl,
    haux xs []]
  simp [odKeys]

/-- Helper: partition_dict at a present key splits the dictionary into the
entries strictly before, the matched entry, and the entries strictly
after. -/
theorem partition_split {γ₁ : Type u} (d : List (κ₁ × γ₁)) (k : κ₁) (v : γ₁)
    (h : odGet d k = some v) :
    ∃ left right, partition_dict d k = (left, some v, right) ∧
      d = left ++ (k, v) :: right ∧ ∀ p ∈ left, p.1 ≠ k := by
  induction d with
  | nil => exact absurd h (by simp [odGet])
  | cons p d ih =>
    by_cases hp : p.1 = k
    · have hv : p.2 = v := by
        rw [odGet_cons, if_pos hp] at h
        simpa using h
      refine ⟨[], d, ?_, ?_, by simp⟩
      · simp only [partition_dict]
        rw [List.takeWhile_cons_of_neg (by simp [hp]),
          List.dropWhile_cons_of_neg (by simp [hp])]
        rw [h]
        rfl
      · simp only [List.nil_append]
        rw [show p = (k, v) from by
          rcases p with ⟨p1, p2⟩
          simp only at hp hv
          rw [hp, hv]]
    · rw [odGet_cons, if_neg hp] at h
      rcases ih h with ⟨left, right, hpart, hsplit, hleft⟩
      refine ⟨p :: left, right, ?_, ?_, ?_⟩
      · simp only [partition_dict] at hpart ⊢
        rw [List.takeWhile_cons_of_pos (by simp [hp]),
          List.dropWhile_cons_of_pos (by simp [hp])]
        rw [odGet_cons, if_neg hp]
        have h1 := congrArg Prod.fst hpart
        have h2 := congrArg (fun t => t.2.2) hpart
        simp only at h1 h2
        rw [h1, h2, h]
      · rw [List.cons_append, ← hsplit]
      · intro q hq
        rcases List.mem_cons.mp hq with hq | hq
        · rw [hq]; exact hp
        · exact hleft q hq

/-- Helper: the surviving old dictionary after a flush is a sublist. -/
theorem collate_flush_snd_sublist {γ₁ : Type u} (merge : γ₁ → γ₁ → γ₁) :
    ∀ (before old_d : List (κ₁ × γ₁)),
      List.Sublist (collate_flush merge before old_d).2 old_d := by
  intro before
  induction before with
  | nil =>
    intro old_d
    simp only [collate_flush]
    exact List.Sublist.refl old_d
  | cons p before ih =>
    intro old_d
    simp only [collate_flush]
    exact List.Sublist.trans (ih _) (by simp only [odPop]; exact List.filter_sublist old_d)

/-- Helper: membership in the surviving old dictionary after a flush. -/
theorem collate_flush_mem_snd {γ₁ : Type u} (merge : γ₁ → γ₁ → γ₁) :
    ∀ (before old_d : List (κ₁ × γ₁)) (q : κ₁ × γ₁),
      q ∈ (collate_flush merge before old_d).2
        ↔ q ∈ old_d ∧ ∀ b ∈ before, q.1 ≠ b.1 := by
  intro before
  induction before with
  | nil =>
    intro old_d q
    simp [collate_flush]
  | cons p before ih =>
    intro old_d q
    simp only [collate_flush]
    rw [ih]
    simp only [odPop, List.mem_filter]
    constructor
    · rintro ⟨⟨hq, hne⟩, hall⟩
      refine ⟨hq, ?_⟩
      intro b hb
      rcases List.mem_cons.mp hb with hb | hb
      · subst hb
        simpa using hne
      · exact hall b hb
    · rintro ⟨hq, hall⟩
      refine ⟨⟨hq, ?_⟩, ?_⟩
      · simpa using hall p (by simp)
      · intro b hb
        exact hall b (by simp [hb])

/-- Helper: the items flushed before a match carry exactly the keys of the
flushed part, in order, when the merge respects keys. -/
theorem collate_flush_fst_keys {γ₁ : Type u} (key : γ₁ → κ₁) (merge : γ₁ → γ₁ → γ₁)
    (hKP : ∀ a b, key a = key b → key (merge a b) = key a) :
    ∀ (before old_d : List (κ₁ × γ₁)),
      (∀ p ∈ before, key p.2 = p.1) → (∀ p ∈ old_d, key p.2 = p.1) →
      (collate_flush merge before old_d).1.map key = odKeys before := by
  intro before
  induction before with
  | nil =>
    intro old_d _ _
    rfl
  | cons p before ih =>
    intro old_d hkB hkO
    simp only [collate_flush, List.map_cons, odKeys]
    have hhead : key (maybe_merge merge p.2 (odPop old_d p.1).1) = p.1 := by
      simp only [odPop]
      cases hg : odGet old_d p.1 with
      | none =>
        simp only [maybe_merge]
        exact hkB p (by simp)
      | some ov =>
        simp only [maybe_merge]
        rcases odGet_eq_some_mem old_d p.1 ov hg with ⟨q, hq, hq1, hq2⟩
        have hkp : key p.2 = p.1 := hkB p (by simp)
        have hkov : key ov = p.1 := by
          rw [← hq2]
          rw [hkO q hq, hq1]
        rw [hKP p.2 ov (by rw [hkp, hkov]), hkp]
    rw [hhead]
    have hrec := ih (odPop old_d p.1).2
      (fun q hq => hkB q (by simp [hq]))
      (fun q hq => by
        simp only [odPop, List.mem_filter] at hq
        exact hkO q hq.1)
    rw [hrec]
    rfl

/-- Helper: the collation loop on an exhausted old dictionary yields the
remaining new values, whatever the fuel. -/
theorem collate_loop_nil {γ₁ : Type u} (key : γ₁ → κ₁) (merge : γ₁ → γ₁ → γ₁)
    (truthy : γ₁ → Bool) (fuel : Nat) (new_d : List (κ₁ × γ₁)) :
    collate_loop key merge truthy fuel [] new_d = new_d.map Prod.snd := by
  cases fuel <;> rfl

/-- Helper: one matched round of the collation loop emits each key exactly
once: the keys of the flushed part, then the matched key, then (by the
provided induction hypothesis) the keys of the surviving old and new parts,
with no repetition across the groups. -/
theorem collate_step_keys {γ₁ : Type u} (key : γ₁ → κ₁) (merge : γ₁ → γ₁ → γ₁)
    (truthy : γ₁ → Bool)
    (hKP : ∀ a b, key a = key b → key (merge a b) = key a)
    (fuel : Nat) (k₀ : κ₁) (v₀ mv : γ₁) (rest before after : List (κ₁ × γ₁))
    (IH : ∀ (old_d new_d : List (κ₁ × γ₁)),
      old_d.length ≤ fuel →
      (odKeys old_d).Nodup → (odKeys new_d).Nodup →
      (∀ p ∈ old_d, key p.2 = p.1) → (∀ p ∈ new_d, key p.2 = p.1) →
      ((collate_loop key merge truthy fuel old_d new_d).map key).Nodup ∧
      (∀ k, k ∈ (collate_loop key merge truthy fuel old_d new_d).map key
          ↔ k ∈ odKeys old_d ∨ k ∈ odKeys new_d))
    (hlen : rest.length ≤ fuel)
    (hkv₀ : key v₀ = k₀) (hkmv : key mv = k₀)
    (hkR : ∀ p ∈ rest, key p.2 = p.1)
    (hkB : ∀ p ∈ before, key p.2 = p.1)
    (hkA : ∀ p ∈ after, key p.2 = p.1)
    (hndR : (odKeys rest).Nodup)
    (hndB : (odKeys before).Nodup)
    (hndA : (odKeys after).Nodup)
    (hk₀R : k₀ ∉ odKeys rest)
    (hk₀B : k₀ ∉ odKeys before)
    (hk₀A : k₀ ∉ odKeys after)
    (hBA : ∀ k, k ∈ odKeys before → k ∉ odKeys after) :
    (((collate_flush merge before rest).1 ++ merge v₀ mv ::
        collate_loop key merge truthy fuel (collate_flush merge before rest).2 after).map key).Nodup ∧
    (∀ k, k ∈ ((collate_flush merge before rest).1 ++ merge v₀ mv ::
        collate_loop key merge truthy fuel (collate_flush merge before rest).2 after).map key
        ↔ (k = k₀ ∨ k ∈ odKeys rest) ∨ (k ∈ odKeys before ∨ k ∈ odKeys after)) := by
  have hsubR' : List.Sublist (collate_flush merge before rest).2 rest :=
    collate_flush_snd_sublist merge before rest
  have hlen' : (collate_flush merge before rest).2.length ≤ fuel :=
    le_trans (List.Sublist.length_le hsubR') hlen
  have hndR' : (odKeys (collate_flush merge before rest).2).Nodup :=
    hndR.sublist (hsubR'.map Prod.fst)
  have hkR' : ∀ p ∈ (collate_flush merge before rest).2, key p.2 = p.1 :=
    fun p hp => hkR p (hsubR'.subset hp)
  obtain ⟨ihN, ihM⟩ := IH (collate_flush merge before rest).2 after hlen' hndR' hndA hkR' hkA
  have hflush_keys : (collate_flush merge before rest).1.map key = odKeys before :=
    collate_flush_fst_keys key merge hKP before rest hkB hkR
  have hkmerge : key (merge v₀ mv) = k₀ := by
    rw [hKP v₀ mv (by rw [hkv₀, hkmv]), hkv₀]
  have hR'sub : ∀ k, k ∈ odKeys (collate_flush merge before rest).2 →
      k ∈ odKeys rest ∧ k ∉ odKeys before := by
    intro k hk
    rcases (mem_odKeys_iff _ k).mp hk with ⟨q, hq, hq1⟩
    rw [collate_flush_mem_snd] at hq
    refine ⟨(mem_odKeys_iff _ k).mpr ⟨q, hq.1, hq1⟩, ?_⟩
    intro hkb
    rcases (mem_odKeys_iff _ k).mp hkb with ⟨b, hb, hb1⟩
    exact hq.2 b hb (by rw [hq1, hb1])
  have hRB'mem : ∀ k, k ∈ odKeys rest → k ∉ odKeys before →
      k ∈ odKeys (collate_flush merge before rest).2 := by
    intro k hk hkb
    rcases (mem_odKeys_iff _ k).mp hk with ⟨q, hq, hq1⟩
    refine (mem_odKeys_iff _ k).mpr ⟨q, ?_, hq1⟩
    rw [collate_flush_mem_snd]
    refine ⟨hq, ?_⟩
    intro b hb hqb
    exact hkb ((mem_odKeys_iff _ k).mpr ⟨b, hb, by rw [← hqb, hq1]⟩)
  have houK : (((collate_flush merge before rest).1 ++ merge v₀ mv ::
        collate_loop key merge truthy fuel (collate_flush merge before rest).2 after).map key)
      = odKeys before ++ k₀ ::
          (collate_loop key merge truthy fuel (collate_flush merge before rest).2 after).map key := by
    rw [List.map_append, hflush_keys, List.map_cons, hkmerge]
  constructor
  · rw [houK, List.nodup_append]
    refine ⟨hndB, ?_, ?_⟩
    · rw [List.nodup_cons]
      refine ⟨?_, ihN⟩
      intro hmem
      rcases (ihM k₀).mp hmem with h | h
      · exact hk₀R (hR'sub k₀ h).1
      · exact hk₀A h
    · intro a haB haC
      rcases List.mem_cons.mp haC with rfl | haL
      · exact hk₀B haB
      · rcases (ihM a).mp haL with h | h
        · exact (hR'sub a h).2 haB
        · exact hBA a haB h
  · intro k
    rw [houK]
    simp only [List.mem_append, List.mem_cons]
    constructor
    · rintro (h | h | h)
      · exact Or.inr (Or.inl h)
      · exact Or.inl (Or.inl h)
      · rcases (ihM k).mp h with h' | h'
        · exact Or.inl (Or.inr (hR'sub k h').1)
        · exact Or.inr (Or.inr h')
    · rintro ((h | h) | (h | h))
      · exact Or.inr (Or.inl h)
      · by_cases hkb : k ∈ odKeys before
        · exact Or.inl hkb
        · exact Or.inr (Or.inr ((ihM k).mpr (Or.inl (hRB'mem k h hkb))))
      · exact Or.inl h
      · exact Or.inr (Or.inr ((ihM k).mpr (Or.inr h)))

/-- Helper: over the whole collation loop (with enough fuel, well-keyed and
duplicate-free dictionaries), the keys of the emitted items are exactly the
keys of the two dictionaries, each exactly once. -/
theorem collate_loop_keys {γ₁ : Type u} (key : γ₁ → κ₁) (merge : γ₁ → γ₁ → γ₁)
    (truthy : γ₁ → Bool)
    (hKP : ∀ a b, key a = key b → key (merge a b) = key a) :
    ∀ (fuel : Nat) (old_d new_d : List (κ₁ × γ₁)),
      old_d.length ≤ fuel →
      (odKeys old_d).Nodup → (odKeys new_d).Nodup →
      (∀ p ∈ old_d, key p.2 = p.1) → (∀ p ∈ new_d, key p.2 = p.1) →
      ((collate_loop key merge truthy fuel old_d new_d).map key).Nodup ∧
      (∀ k, k ∈ (collate_loop key merge truthy fuel old_d new_d).map key
          ↔ k ∈ odKeys old_d ∨ k ∈ odKeys new_d) := by
  intro fuel
  induction fuel with
  | zero =>
    intro old_d new_d hlen hndO hndN hkO hkN
    have hnil : old_d = [] := by
      cases old_d with
      | nil => rfl
      | cons p rest => exact absurd hlen (by simp)
    subst hnil
    rw [collate_loop_nil]
    have hmap : (new_d.map Prod.snd).map key = odKeys new_d := by
      rw [List.map_map]
      exact List.map_congr_left (fun p hp => hkN p hp)
    rw [hmap]
    refine ⟨hndN, ?_⟩
    intro k
    simp [odKeys]
  | succ fuel ihfuel =>
    intro old_d new_d hlen hndO hndN hkO hkN
    cases old_d with
    | nil =>
      rw [collate_loop_nil]
      have hmap : (new_d.map Prod.snd).map key = odKeys new_d := by
        rw [List.map_map]
        exact List.map_congr_left (fun p hp => hkN p hp)
      rw [hmap]
      refine ⟨hndN, ?_⟩
      intro k
      simp [odKeys]
    | cons hd rest =>
      rcases hd with ⟨k₀, v₀⟩
      have hkv₀ : key v₀ = k₀ := hkO (k₀, v₀) (by simp)
      have hkR : ∀ p ∈ rest, key p.2 = p.1 := fun p hp => hkO p (by simp [hp])
      have hndO' : k₀ ∉ odKeys rest ∧ (odKeys rest).Nodup := by
        have : odKeys ((k₀, v₀) :: rest) = k₀ :: odKeys rest := rfl
        rw [this, List.nodup_cons] at hndO
        exact hndO
      have hlenR : rest.length ≤ fuel := by
        simp only [List.length_cons] at hlen
        omega
      have hkeys_cons : odKeys ((k₀, v₀) :: rest) = k₀ :: odKeys rest := rfl
      cases hg : odGet new_d k₀ with
      | none =>
        have hstep : collate_loop key merge truthy (fuel + 1) ((k₀, v₀) :: rest) new_d
            = v₀ :: collate_loop key merge truthy fuel rest new_d := by
          simp only [collate_loop, hg]
        obtain ⟨ihN, ihM⟩ := ihfuel rest new_d hlenR hndO'.2 hndN hkR hkN
        have hk₀N : k₀ ∉ odKeys new_d := (odGet_eq_none_iff_not_mem new_d k₀).mp hg
        constructor
        · rw [hstep, List.map_cons, hkv₀, List.nodup_cons]
          refine ⟨?_, ihN⟩
          intro hmem
          rcases (ihM k₀).mp hmem with h | h
          · exact hndO'.1 h
          · exact hk₀N h
        · intro k
          rw [hstep, List.map_cons, hkv₀, hkeys_cons]
          simp only [List.mem_cons]
          constructor
          · rintro (h | h)
            · exact Or.inl (Or.inl h)
            · rcases (ihM k).mp h with h' | h'
              · exact Or.inl (Or.inr h')
              · exact Or.inr h'
          · rintro ((h | h) | h)
            · exact Or.inl h
            · exact Or.inr ((ihM k).mpr (Or.inl h))
            · exact Or.inr ((ihM k).mpr (Or.inr h))
      | some mv =>
        rcases partition_split new_d k₀ mv hg with ⟨left, right, hpart, hsplit, hleftne⟩
        have hkeys_new : odKeys new_d = odKeys left ++ k₀ :: odKeys right := by
          rw [hsplit]
          simp [odKeys]
        have hnd3 : (odKeys left).Nodup ∧ (k₀ :: odKeys right).Nodup ∧
            List.Disjoint (odKeys left) (k₀ :: odKeys right) := by
          rw [hkeys_new, List.nodup_append] at hndN
          exact hndN
        have hndL : (odKeys left).Nodup := hnd3.1
        have hk₀Rt : k₀ ∉ odKeys right := (List.nodup_cons.mp hnd3.2.1).1
        have hndRt : (odKeys right).Nodup := (List.nodup_cons.mp hnd3.2.1).2
        have hk₀L : k₀ ∉ odKeys left := fun h => hnd3.2.2 h (by simp)
        have hLR : ∀ k, k ∈ odKeys left → k ∉ odKeys right :=
          fun k hk hr => hnd3.2.2 hk (by simp [hr])
        have hRL : ∀ k, k ∈ odKeys right → k ∉ odKeys left :=
          fun k hr hl => hLR k hl hr
        have hkL : ∀ p ∈ left, key p.2 = p.1 := by
          intro p hp
          exact hkN p (by rw [hsplit]; exact List.mem_append_left _ hp)
        have hkRt : ∀ p ∈ right, key p.2 = p.1 := by
          intro p hp
          exact hkN p (by rw [hsplit]; exact List.mem_append_right _ (by simp [hp]))
        have hkmv : key mv = k₀ := by
          have : (k₀, mv) ∈ new_d := by
            rw [hsplit]
            exact List.mem_append_right _ (by simp)
          exact hkN (k₀, mv) this
        have hloop_eq : collate_loop key merge truthy (fuel + 1) ((k₀, v₀) :: rest) new_d
            = (collate_flush merge (swap_on_miss truthy (left, some mv, right)).1 rest).1
              ++ merge v₀ mv :: collate_loop key merge truthy fuel
                  (collate_flush merge (swap_on_miss truthy (left, some mv, right)).1 rest).2
                  (swap_on_miss truthy (left, some mv, right)).2.2 := by
          simp only [collate_loop, hg, hpart]
        by_cases htr : truthy mv = true
        · have hsw : swap_on_miss truthy
              ((left, some mv, right) : List (κ₁ × γ₁) × Option γ₁ × List (κ₁ × γ₁))
              = (left, some mv, right) := by
            simp [swap_on_miss, pyTruthy, htr]
          rw [hsw] at hloop_eq
          obtain ⟨hstepN, hstepM⟩ := collate_step_keys key merge truthy hKP fuel k₀ v₀ mv
            rest left right ihfuel hlenR hkv₀ hkmv hkR hkL hkRt
            hndO'.2 hndL hndRt hndO'.1 hk₀L hk₀Rt hLR
          constructor
          · rw [hloop_eq]
            exact hstepN
          · intro k
            rw [hloop_eq]
            rw [hkeys_cons, hkeys_new]
            have hm := hstepM k
            simp only [List.mem_cons, List.mem_append] at hm ⊢
            constructor
            · intro h
              rcases hm.mp h with (h' | h') | (h' | h')
              · exact Or.inl (Or.inl h')
              · exact Or.inl (Or.inr h')
              · exact Or.inr (Or.inl h')
              · exact Or.inr (Or.inr (Or.inr h'))
            · intro h
              rcases h with (h' | h') | (h' | (h' | h'))
              · exact hm.mpr (Or.inl (Or.inl h'))
              · exact hm.mpr (Or.inl (Or.inr h'))
              · exact hm.mpr (Or.inr (Or.inl h'))
              · exact hm.mpr (Or.inl (Or.inl h'))
              · exact hm.mpr (Or.inr (Or.inr h'))
        · have hsw : swap_on_miss truthy
              ((left, some mv, right) : List (κ₁ × γ₁) × Option γ₁ × List (κ₁ × γ₁))
              = (right, some mv, left) := by
            simp only [swap_on_miss, pyTruthy]
            rw [if_neg htr]
          rw [hsw] at hloop_eq
          obtain ⟨hstepN, hstepM⟩ := collate_step_keys key merge truthy hKP fuel k₀ v₀ mv
            rest right left ihfuel hlenR hkv₀ hkmv hkR hkRt hkL
            hndO'.2 hndRt hndL hndO'.1 hk₀Rt hk₀L hRL
          constructor
          · rw [hloop_eq]
            exact hstepN
          · intro k
            rw [hloop_eq]
            rw [hkeys_cons, hkeys_new]
            have hm := hstepM k
            simp only [List.mem_cons, List.mem_append] at hm ⊢
            constructor
            · intro h
              rcases hm.mp h with (h' | h') | (h' | h')
              · exact Or.inl (Or.inl h')
              · exact Or.inl (Or.inr h')
              · exact Or.inr (Or.inr (Or.inr h'))
              · exact Or.inr (Or.inl h')
            · intro h
              rcases h with (h' | h') | (h' | (h' | h'))
              · exact hm.mpr (Or.inl (Or.inl h'))
              · exact hm.mpr (Or.inl (Or.inr h'))
              · exact hm.mpr (Or.inr (Or.inr h'))
              · exact hm.mpr (Or.inl (Or.inl h'))
              · exact hm.mpr (Or.inr (Or.inl h'))

/-- C2: for every pair of input sequences, every key function, and every
merge function that combines matching items into an item of the same key
(as the default prefer-new merge does), each key occurring in either input
appears exactly once among the keys of the items yielded by collate_revs —
the emitted key list has no duplicates, and a key is emitted exactly when it
occurs in one of the inputs, regardless of the relative order of the two
inputs and of the items' truthiness. -/
theorem c2_collate_keys_exactly_once {γ₁ : Type u} (key : γ₁ → κ₁)
    (merge : γ₁ → γ₁ → γ₁) (truthy : γ₁ → Bool) (old new : List γ₁)
    (hKP : ∀ a b, key a = key b → key (merge a b) = key a) :
    ((collate_revs key merge truthy old new).map key).Nodup ∧
    (∀ k, k ∈ (collate_revs key merge truthy old new).map key
        ↔ k ∈ old.map key ∨ k ∈ new.map key) := by
  obtain ⟨hN, hM⟩ := collate_loop_keys key merge truthy hKP
    (odOfList key old).length (odOfList key old) (odOfList key new)
    le_rfl (odOfList_nodup key old) (odOfList_nodup key new)
    (odOfList_keyed key old) (odOfList_keyed key new)
  refine ⟨hN, ?_⟩
  intro k
  rw [show collate_revs key merge truthy old new
      = collate_loop key merge truthy (odOfList key old).length
          (odOfList key old) (odOfList key new) from rfl]
  rw [hM k, odOfList_keys_mem, odOfList_keys_mem]

/-- C2, witness: keys modulo 3 with the default prefer-new merge on concrete
inputs. -/
theorem c2_witness :
    ((collate_revs (fun n => n % 3) (fun _ n => n) (fun _ => true)
        [1, 2, 3] [4, 5]).map (fun n => n % 3)).Nodup ∧
    (∀ k, k ∈ (collate_revs (fun n => n % 3) (fun _ n => n) (fun _ => true)
        [1, 2, 3] [4, 5]).map (fun n => n % 3)
      ↔ k ∈ [1, 2, 3].map (fun n => n % 3) ∨ k ∈ [4, 5].map (fun n => n % 3)) :=
  c2_collate_keys_exactly_once (fun n => n % 3) (fun _ n => n) (fun _ => true)
    [1, 2, 3] [4, 5] (fun _ _ h => h.symm)

end JaracoItertools
